import Mathlib

/-!
Verification of the turnstile rate-limiting library (`turnstile/limits.py`).

The development shallow-embeds the Python source into Lean:

* Python `float` values are binary64 doubles; every such value is an
  exact rational, and every arithmetic operation rounds its exact
  rational result to 53 significant bits (round to nearest, ties to
  even).  The function `rnd` below implements that rounding exactly
  (with unbounded exponent range, which is faithful for every
  magnitude arising here), and `fadd`/`fsub`/`fdiv` are the float
  operations.
* Rationals are written with the kernel-computable primitives
  `mkRat`, `Rat.num`, `Rat.den`, `Rat.blt` so that every definition
  evaluates inside the kernel; bridge lemmas relate these primitives
  to the ordinary field operations on the rationals for use in proofs.
* Strings are `List Char`; Python dicts are association lists.
-/

set_option maxRecDepth 1000000
set_option maxHeartbeats 1000000

/-! ## Kernel-computable rational primitives -/

/-- Addition on rationals, written with `mkRat` so that it evaluates in
the kernel (the library addition on `Rat` is irreducible). -/
def qadd (a b : ℚ) : ℚ := mkRat (a.num * b.den + b.num * a.den) (a.den * b.den)

/-- Negation on rationals via `mkRat`. -/
def qneg (a : ℚ) : ℚ := mkRat (-a.num) a.den

/-- Subtraction on rationals via `mkRat`. -/
def qsub (a b : ℚ) : ℚ := qadd a (qneg b)

/-- Multiplication on rationals via `mkRat`. -/
def qmul (a b : ℚ) : ℚ := mkRat (a.num * b.num) (a.den * b.den)

/-- Inverse on rationals via `mkRat`; the inverse of zero is zero. -/
def qinv (b : ℚ) : ℚ :=
  if 0 ≤ b.num then mkRat b.den b.num.natAbs else mkRat (-(b.den : ℤ)) b.num.natAbs

/-- Division on rationals via `mkRat`; division by zero yields zero. -/
def qdiv (a b : ℚ) : ℚ := qmul a (qinv b)

/-- Absolute value on rationals via `mkRat`. -/
def qabs (a : ℚ) : ℚ := mkRat a.num.natAbs a.den

/-- Floor of a rational, computed with Euclidean division of the
numerator by the denominator. -/
def ifl (q : ℚ) : ℤ := q.num.ediv q.den

/-- Maximum of two rationals, mirroring the Python builtin `max(a, b)`:
the second argument is returned exactly when it is strictly larger. -/
def qmax (a b : ℚ) : ℚ := if Rat.blt a b then b else a

theorem qadd_eq (a b : ℚ) : qadd a b = a + b := by
  have hda : ((a.den : ℤ) : ℚ) ≠ 0 := by exact_mod_cast Rat.den_ne_zero a
  have hdb : ((b.den : ℤ) : ℚ) ≠ 0 := by exact_mod_cast Rat.den_ne_zero b
  rw [qadd, Rat.mkRat_eq_div]
  conv_rhs => rw [← Rat.num_div_den a, ← Rat.num_div_den b]
  push_cast
  rw [div_add_div _ _ (by exact_mod_cast hda) (by exact_mod_cast hdb)]
  ring_nf

theorem qneg_eq (a : ℚ) : qneg a = -a := by
  rw [qneg, Rat.mkRat_eq_div]
  conv_rhs => rw [← Rat.num_div_den a]
  push_cast
  ring

theorem qsub_eq (a b : ℚ) : qsub a b = a - b := by
  rw [qsub, qadd_eq, qneg_eq, sub_eq_add_neg]

theorem qmul_eq (a b : ℚ) : qmul a b = a * b := by
  rw [qmul, Rat.mkRat_eq_div]
  conv_rhs => rw [← Rat.num_div_den a, ← Rat.num_div_den b]
  push_cast
  rw [div_mul_div_comm]

theorem qinv_eq (b : ℚ) : qinv b = b⁻¹ := by
  have hb : b⁻¹ = (b.den : ℚ) / (b.num : ℚ) := by
    conv_lhs => rw [← Rat.num_div_den b]
    rw [inv_div]
  rw [qinv]
  by_cases h : 0 ≤ b.num
  · have habs : ((b.num.natAbs : ℕ) : ℚ) = (b.num : ℚ) := by
      rw [Int.cast_natAbs]
      exact_mod_cast abs_of_nonneg h
    rw [if_pos h, Rat.mkRat_eq_div, hb, habs]
    norm_cast
  · push_neg at h
    have habs : ((b.num.natAbs : ℕ) : ℚ) = -(b.num : ℚ) := by
      rw [Int.cast_natAbs]
      exact_mod_cast abs_of_neg h
    rw [if_neg (not_le.mpr h), Rat.mkRat_eq_div, hb, habs]
    push_cast
    rw [neg_div_neg_eq]

theorem qdiv_eq (a b : ℚ) : qdiv a b = a / b := by
  rw [qdiv, qmul_eq, qinv_eq, div_eq_mul_inv]

theorem qabs_eq (a : ℚ) : qabs a = |a| := by
  rw [qabs, Rat.mkRat_eq_div]
  conv_rhs => rw [← Rat.num_div_den a]
  rw [abs_div]
  congr 1
  · push_cast [Int.cast_natAbs]
    ring
  · rw [abs_of_pos (show (0 : ℚ) < (a.den : ℚ) by exact_mod_cast a.pos)]

theorem ifl_eq (q : ℚ) : ifl q = ⌊q⌋ := by
  have hd : (0 : ℤ) < (q.den : ℤ) := by exact_mod_cast q.pos
  have key : (q.den : ℤ) * (q.num.ediv q.den) + q.num.emod q.den = q.num :=
    Int.ediv_add_emod q.num q.den
  have hr0 : (0 : ℤ) ≤ q.num.emod q.den := Int.emod_nonneg q.num (by omega)
  have hrlt : q.num.emod q.den < (q.den : ℤ) := Int.emod_lt_of_pos q.num hd
  have hD : (0 : ℚ) < (q.den : ℚ) := by exact_mod_cast q.pos
  have keyQ : ((q.den : ℚ)) * ((q.num.ediv q.den : ℤ) : ℚ) + ((q.num.emod q.den : ℤ) : ℚ)
      = (q.num : ℚ) := by exact_mod_cast congrArg (fun z : ℤ => (z : ℚ)) key
  have hr0Q : (0 : ℚ) ≤ ((q.num.emod q.den : ℤ) : ℚ) := by exact_mod_cast hr0
  have hrltQ : ((q.num.emod q.den : ℤ) : ℚ) < (q.den : ℚ) := by exact_mod_cast hrlt
  symm
  rw [Int.floor_eq_iff]
  constructor
  · have h1 : ((q.num.ediv q.den : ℤ) : ℚ) ≤ (q.num : ℚ) / (q.den : ℚ) := by
      rw [le_div_iff hD]
      nlinarith [keyQ, hr0Q]
    rw [Rat.num_div_den] at h1
    exact h1
  · have h2 : (q.num : ℚ) / (q.den : ℚ) < ((q.num.ediv q.den : ℤ) : ℚ) + 1 := by
      rw [div_lt_iff hD]
      nlinarith [keyQ, hrltQ]
    rw [Rat.num_div_den] at h2
    exact_mod_cast h2

theorem blt_iff (a b : ℚ) : Rat.blt a b = true ↔ a < b := Iff.rfl

theorem qmax_eq (a b : ℚ) : qmax a b = max a b := by
  rw [qmax]
  cases hb : Rat.blt a b with
  | true =>
    have h : a < b := (blt_iff a b).mp hb
    simp only [hb, if_true]
    exact (max_eq_right h.le).symm
  | false =>
    have h : ¬ a < b := fun hc => by
      have := (blt_iff a b).mpr hc
      rw [hb] at this
      cases this
    simp only [hb, Bool.false_eq_true, if_false]
    exact (max_eq_left (not_lt.mp h)).symm

theorem mkRat_intCast (n : ℤ) : (mkRat n 1 : ℚ) = (n : ℚ) := by
  rw [Rat.mkRat_eq_div]
  norm_num

/-! ## Binary64 rounding

A double is an exact rational `m * 2 ^ e` with `|m| <= 2 ^ 53`.  `rnd`
rounds an arbitrary rational to the nearest double (ties to even),
with no bound on the exponent. -/

/-- Fuel-driven base-2 logarithm on naturals; `log2F f n` peels one
unit of fuel per halving, so `log2F n n` runs in logarithmically many
steps inside the kernel. -/
def log2F : ℕ → ℕ → ℕ
  | 0, _ => 0
  | f + 1, n => if n < 2 then 0 else log2F f (n / 2) + 1

/-- Base-2 logarithm (floor) of a positive natural. -/
def log2n (n : ℕ) : ℕ := log2F n n

theorem log2F_spec : ∀ f n : ℕ, 1 ≤ n → n ≤ f →
    2 ^ log2F f n ≤ n ∧ n < 2 ^ (log2F f n + 1) := by
  intro f
  induction f with
  | zero => intro n h1 h2; omega
  | succ f ih =>
    intro n h1 h2
    rw [log2F]
    by_cases hn : n < 2
    · rw [if_pos hn]
      constructor
      · simpa using h1
      · simpa using hn
    · rw [if_neg hn]
      push_neg at hn
      have hrec := ih (n / 2) (by omega) (by omega)
      obtain ⟨ha, hb⟩ := hrec
      have h2L : 2 ^ (log2F f (n / 2) + 1) = 2 * 2 ^ log2F f (n / 2) := by ring
      have h2L2 : 2 ^ (log2F f (n / 2) + 1 + 1) = 2 * 2 ^ (log2F f (n / 2) + 1) := by
        ring
      omega

theorem log2n_spec (n : ℕ) (h : 1 ≤ n) :
    2 ^ log2n n ≤ n ∧ n < 2 ^ (log2n n + 1) :=
  log2F_spec n n h le_rfl

/-- Integer power of two as a rational, kernel-computable. -/
def pow2 (k : ℤ) : ℚ :=
  if 0 ≤ k then mkRat (2 ^ k.toNat) 1 else mkRat 1 (2 ^ (-k).toNat)

theorem pow2_eq (k : ℤ) : pow2 k = (2 : ℚ) ^ k := by
  by_cases h : 0 ≤ k
  · rw [pow2, if_pos h, mkRat_intCast]
    push_cast
    rw [← zpow_natCast (2 : ℚ) k.toNat, Int.toNat_of_nonneg h]
  · push_neg at h
    rw [pow2, if_neg (not_le.mpr h), Rat.mkRat_eq_div]
    push_cast
    rw [← zpow_natCast (2 : ℚ) (-k).toNat, Int.toNat_of_nonneg (by omega : (0:ℤ) ≤ -k)]
    rw [one_div, ← zpow_neg, neg_neg]

/-- Binary exponent of a nonzero rational: the unique `e` with
`2 ^ e <= |q| < 2 ^ (e + 1)`. -/
def rexp (q : ℚ) : ℤ :=
  let d : ℤ := (log2n q.num.natAbs : ℤ) - (log2n q.den : ℤ)
  if Rat.blt (qabs q) (pow2 d) then d - 1 else d

theorem rexp_spec (q : ℚ) (hq : q ≠ 0) :
    (2 : ℚ) ^ rexp q ≤ |q| ∧ |q| < (2 : ℚ) ^ (rexp q + 1) := by
  have hnum : q.num ≠ 0 := Rat.num_ne_zero.mpr hq
  have ha1 : 1 ≤ q.num.natAbs := by omega
  have hb1 : 1 ≤ q.den := q.pos
  obtain ⟨haL, haU⟩ := log2n_spec q.num.natAbs ha1
  obtain ⟨hbL, hbU⟩ := log2n_spec q.den hb1
  have hDpos : (0 : ℚ) < (q.den : ℚ) := by exact_mod_cast q.pos
  have habs : |q| = (q.num.natAbs : ℚ) / (q.den : ℚ) := by
    rw [← qabs_eq, qabs, Rat.mkRat_eq_div]
    push_cast [Int.cast_natAbs]
    ring
  set La : ℤ := (log2n q.num.natAbs : ℤ) with hLa
  set Lb : ℤ := (log2n q.den : ℤ) with hLb
  have haLQ : (2 : ℚ) ^ La ≤ (q.num.natAbs : ℚ) := by
    rw [hLa, zpow_natCast]
    exact_mod_cast haL
  have haUQ : (q.num.natAbs : ℚ) < (2 : ℚ) ^ (La + 1) := by
    rw [hLa, show ((log2n q.num.natAbs : ℤ) + 1) = ((log2n q.num.natAbs + 1 : ℕ) : ℤ) by
      push_cast; ring, zpow_natCast]
    exact_mod_cast haU
  have hbLQ : (2 : ℚ) ^ Lb ≤ (q.den : ℚ) := by
    rw [hLb, zpow_natCast]
    exact_mod_cast hbL
  have hbUQ : (q.den : ℚ) < (2 : ℚ) ^ (Lb + 1) := by
    rw [hLb, show ((log2n q.den : ℤ) + 1) = ((log2n q.den + 1 : ℕ) : ℤ) by
      push_cast; ring, zpow_natCast]
    exact_mod_cast hbU
  have hlow : (2 : ℚ) ^ (La - Lb - 1) < |q| := by
    rw [habs, lt_div_iff hDpos]
    calc (2 : ℚ) ^ (La - Lb - 1) * (q.den : ℚ)
        < (2 : ℚ) ^ (La - Lb - 1) * (2 : ℚ) ^ (Lb + 1) := by
          exact mul_lt_mul_of_pos_left hbUQ (zpow_pos (by norm_num) _)
      _ = (2 : ℚ) ^ La := by
          rw [← zpow_add₀ (by norm_num : (2:ℚ) ≠ 0)]
          ring_nf
      _ ≤ (q.num.natAbs : ℚ) := haLQ
  have hhigh : |q| < (2 : ℚ) ^ (La - Lb + 1) := by
    rw [habs, div_lt_iff hDpos]
    calc (q.num.natAbs : ℚ) < (2 : ℚ) ^ (La + 1) := haUQ
      _ = (2 : ℚ) ^ (La - Lb + 1) * (2 : ℚ) ^ Lb := by
          rw [← zpow_add₀ (by norm_num : (2:ℚ) ≠ 0)]
          ring_nf
      _ ≤ (2 : ℚ) ^ (La - Lb + 1) * (q.den : ℚ) := by
          exact mul_le_mul_of_nonneg_left hbLQ (le_of_lt (zpow_pos (by norm_num) _))
  have hre : rexp q = if Rat.blt (qabs q) (pow2 (La - Lb)) then La - Lb - 1 else La - Lb :=
    rfl
  cases hblt : Rat.blt (qabs q) (pow2 (La - Lb)) with
  | true =>
    have h : |q| < (2 : ℚ) ^ (La - Lb) := by
      have h0 := (blt_iff (qabs q) (pow2 (La - Lb))).mp hblt
      rwa [qabs_eq, pow2_eq] at h0
    rw [hre, if_pos hblt]
    constructor
    · exact hlow.le
    · rw [show La - Lb - 1 + 1 = La - Lb by ring]
      exact h
  | false =>
    have h : (2 : ℚ) ^ (La - Lb) ≤ |q| := by
      have hnlt : ¬ (qabs q < pow2 (La - Lb)) := fun hc => by
        have h1 := (blt_iff (qabs q) (pow2 (La - Lb))).mpr hc
        rw [hblt] at h1
        cases h1
      rw [qabs_eq, pow2_eq] at hnlt
      exact not_lt.mp hnlt
    rw [hre, if_neg (by simp [hblt])]
    exact ⟨h, hhigh⟩

/-- Round a rational to the nearest integer, ties to even. -/
def rnhe (x : ℚ) : ℤ :=
  if Rat.blt (qsub x (mkRat (ifl x) 1)) (mkRat 1 2) then ifl x
  else if Rat.blt (mkRat 1 2) (qsub x (mkRat (ifl x) 1)) then ifl x + 1
  else if Int.emod (ifl x) 2 = 0 then ifl x else ifl x + 1

theorem rnhe_eq (x : ℚ) :
    rnhe x = if x - ⌊x⌋ < (1 : ℚ)/2 then ⌊x⌋
      else if (1 : ℚ)/2 < x - ⌊x⌋ then ⌊x⌋ + 1
      else if ⌊x⌋ % 2 = 0 then ⌊x⌋ else ⌊x⌋ + 1 := by
  have h12 : (mkRat 1 2 : ℚ) = 1/2 := by
    rw [Rat.mkRat_eq_div]
    norm_num
  have hsub : qsub x (mkRat (ifl x) 1) = x - ⌊x⌋ := by
    rw [qsub_eq, mkRat_intCast, ifl_eq]
  rw [rnhe, hsub, h12, ifl_eq]
  exact if_congr Iff.rfl rfl (if_congr Iff.rfl rfl (if_congr Iff.rfl rfl rfl))

theorem rnhe_cases (x : ℚ) : rnhe x = ⌊x⌋ ∨ rnhe x = ⌊x⌋ + 1 := by
  rw [rnhe_eq]
  split_ifs <;> simp

theorem rnhe_floor_le (x : ℚ) : ⌊x⌋ ≤ rnhe x := by
  rcases rnhe_cases x with h | h <;> omega

theorem rnhe_le_floor_add_one (x : ℚ) : rnhe x ≤ ⌊x⌋ + 1 := by
  rcases rnhe_cases x with h | h <;> omega

theorem rnhe_err (x : ℚ) : |(rnhe x : ℚ) - x| ≤ 1/2 := by
  have hfl := Int.floor_le x
  have hlt := Int.lt_floor_add_one x
  rw [rnhe_eq]
  split_ifs with h1 h2 h3
  · rw [abs_le]
    constructor <;> linarith
  · rw [abs_le]
    push_cast
    constructor <;> linarith
  · have he : x - ⌊x⌋ = 1/2 := le_antisymm (not_lt.mp h2) (not_lt.mp h1)
    rw [abs_le]
    constructor <;> linarith
  · have he : x - ⌊x⌋ = 1/2 := le_antisymm (not_lt.mp h2) (not_lt.mp h1)
    rw [abs_le]
    push_cast
    constructor <;> linarith

theorem rnhe_intCast (n : ℤ) : rnhe ((n : ℤ) : ℚ) = n := by
  rw [rnhe_eq, Int.floor_intCast]
  norm_num

theorem rnhe_mono {x y : ℚ} (h : x ≤ y) : rnhe x ≤ rnhe y := by
  by_cases hf : ⌊x⌋ = ⌊y⌋
  · have hfy : x - ⌊x⌋ ≤ y - ⌊y⌋ := by
      rw [hf]
      exact sub_le_sub_right h _
    rw [rnhe_eq, rnhe_eq, hf]
    split_ifs with a1 a2 a3 a4 a5 a6 a7 a8 a9 <;>
      first
        | omega
        | (exfalso; rw [hf] at *; linarith)
  · have hlt : ⌊x⌋ < ⌊y⌋ := lt_of_le_of_ne (Int.floor_le_floor h) hf
    have h1 := rnhe_le_floor_add_one x
    have h2 := rnhe_floor_le y
    omega

/-- Round a rational to the nearest binary64 double (round to nearest,
ties to even; no exponent bound, so no overflow or subnormals). -/
def rnd (q : ℚ) : ℚ :=
  if q.num = 0 then q
  else qmul (mkRat (rnhe (qmul q (pow2 (52 - rexp q)))) 1) (pow2 (rexp q - 52))

theorem rnd_eq {q : ℚ} (hq : q ≠ 0) :
    rnd q = ((rnhe (q * (2:ℚ) ^ (52 - rexp q)) : ℤ) : ℚ) * (2:ℚ) ^ (rexp q - 52) := by
  rw [rnd, if_neg (by simpa using Rat.num_ne_zero.mpr hq), qmul_eq, qmul_eq,
    mkRat_intCast, pow2_eq, pow2_eq]

theorem rnd_zero : rnd 0 = 0 := by
  rw [rnd]
  norm_num

theorem two_zpow_pos (k : ℤ) : (0 : ℚ) < (2:ℚ) ^ k :=
  zpow_pos (by norm_num) k

theorem rnd_self_eq (q : ℚ) : q = q * (2:ℚ) ^ (52 - rexp q) * (2:ℚ) ^ (rexp q - 52) := by
  rw [mul_assoc, ← zpow_add₀ (by norm_num : (2:ℚ) ≠ 0)]
  norm_num

theorem rnd_sub_eq {q : ℚ} (hq : q ≠ 0) :
    rnd q - q = ((rnhe (q * (2:ℚ) ^ (52 - rexp q)) : ℤ) : ℚ) * (2:ℚ) ^ (rexp q - 52)
      - q * (2:ℚ) ^ (52 - rexp q) * (2:ℚ) ^ (rexp q - 52) := by
  rw [rnd_eq hq]
  congr 1
  exact rnd_self_eq q

theorem rnd_err {q : ℚ} (hq : q ≠ 0) : |rnd q - q| ≤ (2:ℚ) ^ (rexp q - 53) := by
  have h2 : ((2:ℚ) ^ (rexp q - 52)) > 0 := two_zpow_pos _
  rw [rnd_sub_eq hq, ← sub_mul, abs_mul, abs_of_pos h2]
  have herr := rnhe_err (q * (2:ℚ) ^ (52 - rexp q))
  calc |((rnhe (q * (2:ℚ) ^ (52 - rexp q)) : ℤ) : ℚ) - q * (2:ℚ) ^ (52 - rexp q)|
        * (2:ℚ) ^ (rexp q - 52)
      ≤ (1/2) * (2:ℚ) ^ (rexp q - 52) := by
        exact mul_le_mul_of_nonneg_right herr h2.le
    _ = (2:ℚ) ^ (rexp q - 53) := by
        rw [show (1:ℚ)/2 = (2:ℚ) ^ (-1 : ℤ) by norm_num,
          ← zpow_add₀ (by norm_num : (2:ℚ) ≠ 0)]
        ring_nf

theorem rnd_err_rel (q : ℚ) : |rnd q - q| ≤ |q| * (2:ℚ) ^ (-53 : ℤ) := by
  rcases eq_or_ne q 0 with h | h
  · subst h
    rw [rnd_zero]
    norm_num
  · calc |rnd q - q| ≤ (2:ℚ) ^ (rexp q - 53) := rnd_err h
      _ = (2:ℚ) ^ (rexp q) * (2:ℚ) ^ (-53 : ℤ) := by
          rw [← zpow_add₀ (by norm_num : (2:ℚ) ≠ 0)]
          ring_nf
      _ ≤ |q| * (2:ℚ) ^ (-53 : ℤ) := by
          exact mul_le_mul_of_nonneg_right (rexp_spec q h).1 (two_zpow_pos _).le

theorem xabs_lb {q : ℚ} (hq : q ≠ 0) :
    (2:ℚ) ^ (52 : ℤ) ≤ |q * (2:ℚ) ^ (52 - rexp q)| := by
  rw [abs_mul, abs_of_pos (two_zpow_pos _)]
  calc (2:ℚ) ^ (52 : ℤ) = (2:ℚ) ^ (rexp q) * (2:ℚ) ^ (52 - rexp q) := by
        rw [← zpow_add₀ (by norm_num : (2:ℚ) ≠ 0)]
        ring_nf
    _ ≤ |q| * (2:ℚ) ^ (52 - rexp q) :=
        mul_le_mul_of_nonneg_right (rexp_spec q hq).1 (two_zpow_pos _).le

theorem xabs_ub {q : ℚ} (hq : q ≠ 0) :
    |q * (2:ℚ) ^ (52 - rexp q)| < (2:ℚ) ^ (53 : ℤ) := by
  rw [abs_mul, abs_of_pos (two_zpow_pos _)]
  calc |q| * (2:ℚ) ^ (52 - rexp q)
      < (2:ℚ) ^ (rexp q + 1) * (2:ℚ) ^ (52 - rexp q) :=
        mul_lt_mul_of_pos_right (rexp_spec q hq).2 (two_zpow_pos _)
    _ = (2:ℚ) ^ (53 : ℤ) := by
        rw [← zpow_add₀ (by norm_num : (2:ℚ) ≠ 0)]
        ring_nf

theorem rnd_nonneg {q : ℚ} (h : 0 ≤ q) : 0 ≤ rnd q := by
  rcases eq_or_lt_of_le h with h0 | h0
  · rw [← h0, rnd_zero]
  · rw [rnd_eq h0.ne']
    have hx : 0 < q * (2:ℚ) ^ (52 - rexp q) := mul_pos h0 (two_zpow_pos _)
    have hfl : (0 : ℤ) ≤ ⌊q * (2:ℚ) ^ (52 - rexp q)⌋ := Int.floor_nonneg.mpr hx.le
    have hr : (0 : ℤ) ≤ rnhe (q * (2:ℚ) ^ (52 - rexp q)) :=
      le_trans hfl (rnhe_floor_le _)
    exact mul_nonneg (by exact_mod_cast hr) (two_zpow_pos _).le

theorem rnd_pos {q : ℚ} (h : 0 < q) : 0 < rnd q := by
  rw [rnd_eq h.ne']
  have hxpos : 0 < q * (2:ℚ) ^ (52 - rexp q) := mul_pos h (two_zpow_pos _)
  have hxlb : (2:ℚ) ^ (52 : ℤ) ≤ q * (2:ℚ) ^ (52 - rexp q) := by
    have := xabs_lb h.ne'
    rwa [abs_of_pos hxpos] at this
  have h1x : (1 : ℚ) ≤ q * (2:ℚ) ^ (52 - rexp q) := by
    calc (1:ℚ) ≤ (2:ℚ) ^ (52 : ℤ) := by
          rw [show (52:ℤ) = ((52:ℕ):ℤ) by norm_num, zpow_natCast]
          norm_num
      _ ≤ _ := hxlb
  have hfl : (1 : ℤ) ≤ ⌊q * (2:ℚ) ^ (52 - rexp q)⌋ := by
    rw [Int.le_floor]
    exact_mod_cast h1x
  have hr : (1 : ℤ) ≤ rnhe (q * (2:ℚ) ^ (52 - rexp q)) :=
    le_trans hfl (rnhe_floor_le _)
  exact mul_pos (by exact_mod_cast lt_of_lt_of_le Int.zero_lt_one hr) (two_zpow_pos _)

theorem rnd_nonpos {q : ℚ} (h : q ≤ 0) : rnd q ≤ 0 := by
  rcases eq_or_lt_of_le h with h0 | h0
  · rw [h0, rnd_zero]
  · rw [rnd_eq h0.ne]
    have hxneg : q * (2:ℚ) ^ (52 - rexp q) < 0 :=
      mul_neg_of_neg_of_pos h0 (two_zpow_pos _)
    have hle : q * (2:ℚ) ^ (52 - rexp q) ≤ -1 := by
      have hlb := xabs_lb h0.ne
      rw [abs_of_neg hxneg] at hlb
      have h252 : (1:ℚ) ≤ (2:ℚ) ^ (52 : ℤ) := by
        rw [show (52:ℤ) = ((52:ℕ):ℤ) by norm_num, zpow_natCast]
        norm_num
      linarith
    have hfl : ⌊q * (2:ℚ) ^ (52 - rexp q)⌋ ≤ -1 := by
      calc ⌊q * (2:ℚ) ^ (52 - rexp q)⌋ ≤ ⌊(-1 : ℚ)⌋ := Int.floor_le_floor hle
        _ = -1 := by norm_num
    have hr : rnhe (q * (2:ℚ) ^ (52 - rexp q)) ≤ 0 := by
      have := rnhe_le_floor_add_one (q * (2:ℚ) ^ (52 - rexp q))
      omega
    exact mul_nonpos_of_nonpos_of_nonneg (by exact_mod_cast hr) (two_zpow_pos _).le

theorem rnd_le_two_pow {q : ℚ} (h : 0 < q) : rnd q ≤ (2:ℚ) ^ (rexp q + 1) := by
  rw [rnd_eq h.ne']
  have hxpos : 0 < q * (2:ℚ) ^ (52 - rexp q) := mul_pos h (two_zpow_pos _)
  have hxub : q * (2:ℚ) ^ (52 - rexp q) < (2:ℚ) ^ (53 : ℤ) := by
    have := xabs_ub h.ne'
    rwa [abs_of_pos hxpos] at this
  have hfl : ⌊q * (2:ℚ) ^ (52 - rexp q)⌋ < 2 ^ 53 := by
    rw [Int.floor_lt]
    calc q * (2:ℚ) ^ (52 - rexp q) < (2:ℚ) ^ (53 : ℤ) := hxub
      _ = ((2 ^ 53 : ℤ) : ℚ) := by
          rw [show (53:ℤ) = ((53:ℕ):ℤ) by norm_num, zpow_natCast]
          push_cast
          norm_num
  have hr : rnhe (q * (2:ℚ) ^ (52 - rexp q)) ≤ 2 ^ 53 := by
    have := rnhe_le_floor_add_one (q * (2:ℚ) ^ (52 - rexp q))
    omega
  calc ((rnhe (q * (2:ℚ) ^ (52 - rexp q)) : ℤ) : ℚ) * (2:ℚ) ^ (rexp q - 52)
      ≤ ((2 ^ 53 : ℤ) : ℚ) * (2:ℚ) ^ (rexp q - 52) := by
        exact mul_le_mul_of_nonneg_right (by exact_mod_cast hr) (two_zpow_pos _).le
    _ = (2:ℚ) ^ (rexp q + 1) := by
        rw [show ((2 ^ 53 : ℤ) : ℚ) = (2:ℚ) ^ (53 : ℤ) by
          rw [show (53:ℤ) = ((53:ℕ):ℤ) by norm_num, zpow_natCast]
          push_cast
          norm_num]
        rw [← zpow_add₀ (by norm_num : (2:ℚ) ≠ 0)]
        ring_nf

theorem two_pow_le_rnd {q : ℚ} (h : 0 < q) : (2:ℚ) ^ (rexp q) ≤ rnd q := by
  rw [rnd_eq h.ne']
  have hxpos : 0 < q * (2:ℚ) ^ (52 - rexp q) := mul_pos h (two_zpow_pos _)
  have hxlb : (2:ℚ) ^ (52 : ℤ) ≤ q * (2:ℚ) ^ (52 - rexp q) := by
    have := xabs_lb h.ne'
    rwa [abs_of_pos hxpos] at this
  have hfl : (2 ^ 52 : ℤ) ≤ ⌊q * (2:ℚ) ^ (52 - rexp q)⌋ := by
    rw [Int.le_floor]
    calc ((2 ^ 52 : ℤ) : ℚ) = (2:ℚ) ^ (52 : ℤ) := by
          rw [show (52:ℤ) = ((52:ℕ):ℤ) by norm_num, zpow_natCast]
          push_cast
          norm_num
      _ ≤ _ := hxlb
  have hr : (2 ^ 52 : ℤ) ≤ rnhe (q * (2:ℚ) ^ (52 - rexp q)) :=
    le_trans hfl (rnhe_floor_le _)
  calc (2:ℚ) ^ (rexp q)
      = ((2 ^ 52 : ℤ) : ℚ) * (2:ℚ) ^ (rexp q - 52) := by
        rw [show ((2 ^ 52 : ℤ) : ℚ) = (2:ℚ) ^ (52 : ℤ) by
          rw [show (52:ℤ) = ((52:ℕ):ℤ) by norm_num, zpow_natCast]
          push_cast
          norm_num]
        rw [← zpow_add₀ (by norm_num : (2:ℚ) ≠ 0)]
        ring_nf
    _ ≤ _ := mul_le_mul_of_nonneg_right (by exact_mod_cast hr) (two_zpow_pos _).le

theorem rexp_mono {x y : ℚ} (hx : 0 < x) (hxy : x ≤ y) : rexp x ≤ rexp y := by
  have hy : 0 < y := lt_of_lt_of_le hx hxy
  have h1 : (2:ℚ) ^ (rexp x) ≤ x := by
    have := (rexp_spec x hx.ne').1
    rwa [abs_of_pos hx] at this
  have h2 : y < (2:ℚ) ^ (rexp y + 1) := by
    have := (rexp_spec y hy.ne').2
    rwa [abs_of_pos hy] at this
  have : (2:ℚ) ^ (rexp x) < (2:ℚ) ^ (rexp y + 1) := by
    calc (2:ℚ) ^ (rexp x) ≤ x := h1
      _ ≤ y := hxy
      _ < _ := h2
  have := (zpow_lt_zpow_iff_right₀ (by norm_num : (1:ℚ) < 2)).mp this
  omega

theorem rnd_mono_nonneg {x y : ℚ} (hx : 0 ≤ x) (hxy : x ≤ y) : rnd x ≤ rnd y := by
  rcases eq_or_lt_of_le hx with h0 | h0
  · rw [← h0, rnd_zero]
    exact rnd_nonneg (le_trans hx hxy)
  · have hy : 0 < y := lt_of_lt_of_le h0 hxy
    have hee : rexp x ≤ rexp y := rexp_mono h0 hxy
    rcases eq_or_lt_of_le hee with heq | hlt
    · rw [rnd_eq h0.ne', rnd_eq hy.ne', ← heq]
      have hmono : rnhe (x * (2:ℚ) ^ (52 - rexp x)) ≤ rnhe (y * (2:ℚ) ^ (52 - rexp x)) :=
        rnhe_mono (mul_le_mul_of_nonneg_right hxy (two_zpow_pos _).le)
      exact mul_le_mul_of_nonneg_right (by exact_mod_cast hmono) (two_zpow_pos _).le
    · calc rnd x ≤ (2:ℚ) ^ (rexp x + 1) := rnd_le_two_pow h0
        _ ≤ (2:ℚ) ^ (rexp y) := zpow_le_zpow_right₀ (by norm_num) (by omega)
        _ ≤ rnd y := two_pow_le_rnd hy

theorem intCast_two_pow (n : ℕ) : ((2 ^ n : ℤ) : ℚ) = (2:ℚ) ^ ((n : ℕ) : ℤ) := by
  rw [zpow_natCast]
  push_cast
  norm_num

theorem rnd_dyadic (m e : ℤ) (hm : |m| < 2 ^ 53) :
    rnd ((m : ℚ) * (2:ℚ) ^ e) = (m : ℚ) * (2:ℚ) ^ e := by
  rcases eq_or_ne m 0 with h0 | h0
  · subst h0
    push_cast
    rw [zero_mul, rnd_zero]
  · have hqne : (m : ℚ) * (2:ℚ) ^ e ≠ 0 :=
      mul_ne_zero (by exact_mod_cast h0) (two_zpow_pos e).ne'
    set E := rexp ((m : ℚ) * (2:ℚ) ^ e) with hE
    have habs : |(m : ℚ) * (2:ℚ) ^ e| = |(m:ℚ)| * (2:ℚ) ^ e := by
      rw [abs_mul, abs_of_pos (two_zpow_pos e)]
    have hElt : E < e + 53 := by
      have h1 : (2:ℚ) ^ E ≤ |(m : ℚ) * (2:ℚ) ^ e| := (rexp_spec _ hqne).1
      have h2 : |(m : ℚ) * (2:ℚ) ^ e| < (2:ℚ) ^ (e + 53) := by
        rw [habs]
        have hmQ : |(m:ℚ)| < ((2 ^ 53 : ℤ) : ℚ) := by exact_mod_cast hm
        calc |(m:ℚ)| * (2:ℚ) ^ e < ((2 ^ 53 : ℤ) : ℚ) * (2:ℚ) ^ e :=
              mul_lt_mul_of_pos_right hmQ (two_zpow_pos e)
          _ = (2:ℚ) ^ (e + 53) := by
              rw [intCast_two_pow, ← zpow_add₀ (by norm_num : (2:ℚ) ≠ 0)]
              ring_nf
      have h3 := lt_of_le_of_lt h1 h2
      have := (zpow_lt_zpow_iff_right₀ (by norm_num : (1:ℚ) < 2)).mp h3
      omega
    have hk : (0:ℤ) ≤ e + 52 - E := by omega
    have hpow : (2:ℚ) ^ e * (2:ℚ) ^ (52 - E) = (2:ℚ) ^ ((e + 52 - E).toNat : ℤ) := by
      rw [Int.toNat_of_nonneg hk, ← zpow_add₀ (by norm_num : (2:ℚ) ≠ 0)]
      ring_nf
    have hx : ((m : ℚ) * (2:ℚ) ^ e) * (2:ℚ) ^ (52 - E)
        = ((m * 2 ^ (e + 52 - E).toNat : ℤ) : ℚ) := by
      push_cast
      rw [mul_assoc, hpow, zpow_natCast]
    rw [rnd_eq hqne, ← hE, hx, rnhe_intCast]
    push_cast
    rw [← zpow_natCast (2:ℚ) (e + 52 - E).toNat, Int.toNat_of_nonneg hk]
    rw [mul_assoc, ← zpow_add₀ (by norm_num : (2:ℚ) ≠ 0)]
    rw [show e + 52 - E + (E - 52) = e by ring]

theorem rnd_dyadic_le (m e : ℤ) (hm : |m| ≤ 2 ^ 53) :
    rnd ((m : ℚ) * (2:ℚ) ^ e) = (m : ℚ) * (2:ℚ) ^ e := by
  rcases lt_or_eq_of_le hm with h | h
  · exact rnd_dyadic m e h
  · have hcases : m = 2 ^ 53 ∨ m = -(2 ^ 53) := by
      rcases abs_cases m with ⟨h1, _⟩ | ⟨h1, _⟩
      · left; omega
      · right; omega
    have hrw : (m : ℚ) * (2:ℚ) ^ e = ((m / 2 : ℤ) : ℚ) * (2:ℚ) ^ (e + 1) := by
      have hm2 : (2 : ℤ) ∣ m := by rcases hcases with h | h <;> subst h <;> decide
      obtain ⟨c, hc⟩ := hm2
      subst hc
      rw [Int.mul_ediv_cancel_left c (by norm_num)]
      push_cast
      rw [zpow_add₀ (by norm_num : (2:ℚ) ≠ 0)]
      ring
    rw [hrw]
    apply rnd_dyadic
    have : m / 2 = 2 ^ 52 ∨ m / 2 = -(2 ^ 52) := by
      rcases hcases with h1 | h1 <;> subst h1 <;> norm_num
    rcases this with h1 | h1 <;> rw [h1] <;> norm_num

theorem rnhe_abs_le {q : ℚ} (hq : q ≠ 0) :
    |rnhe (q * (2:ℚ) ^ (52 - rexp q))| ≤ 2 ^ 53 := by
  have hub := xabs_ub hq
  have h1 : q * (2:ℚ) ^ (52 - rexp q) < ((2 ^ 53 : ℤ) : ℚ) := by
    rw [intCast_two_pow]
    calc q * (2:ℚ) ^ (52 - rexp q) ≤ |q * (2:ℚ) ^ (52 - rexp q)| := le_abs_self _
      _ < _ := hub
  have h2 : (((-(2 ^ 53) : ℤ)) : ℚ) < q * (2:ℚ) ^ (52 - rexp q) := by
    have hlow := (abs_lt.mp hub).1
    have hc : (((-(2 ^ 53) : ℤ)) : ℚ) = -((2:ℚ) ^ (53 : ℤ)) := by
      rw [show (53 : ℤ) = ((53:ℕ) : ℤ) by norm_num, ← intCast_two_pow]
      push_cast
      ring
    rw [hc]
    exact hlow
  have hfl1 : ⌊q * (2:ℚ) ^ (52 - rexp q)⌋ < 2 ^ 53 := by
    rw [Int.floor_lt]
    exact h1
  have hfl2 : -(2 ^ 53) ≤ ⌊q * (2:ℚ) ^ (52 - rexp q)⌋ := by
    rw [Int.le_floor]
    exact h2.le
  have hr1 := rnhe_floor_le (q * (2:ℚ) ^ (52 - rexp q))
  have hr2 := rnhe_le_floor_add_one (q * (2:ℚ) ^ (52 - rexp q))
  rw [abs_le]
  omega

theorem rep_decomp {q : ℚ} (hq : q ≠ 0) (h : rnd q = q) :
    ∃ m : ℤ, |m| ≤ 2 ^ 53 ∧ q = (m : ℚ) * (2:ℚ) ^ (rexp q - 52) := by
  refine ⟨rnhe (q * (2:ℚ) ^ (52 - rexp q)), rnhe_abs_le hq, ?_⟩
  conv_lhs => rw [← h]
  rw [rnd_eq hq]

theorem rnd_idem (q : ℚ) : rnd (rnd q) = rnd q := by
  rcases eq_or_ne q 0 with h0 | h0
  · rw [h0, rnd_zero, rnd_zero]
  · rw [rnd_eq h0]
    exact rnd_dyadic_le _ _ (rnhe_abs_le h0)

theorem sterbenz {x y : ℚ} (hx : rnd x = x) (hy : rnd y = y) (h0 : 0 < y)
    (h1 : y < x) (h2 : x ≤ 2 * y) : rnd (x - y) = x - y := by
  have hxpos : 0 < x := lt_trans h0 h1
  obtain ⟨mx, hmx, hxd⟩ := rep_decomp hxpos.ne' hx
  obtain ⟨my, hmy, hyd⟩ := rep_decomp h0.ne' hy
  set a : ℤ := min (rexp x) (rexp y) - 52 with ha
  have hax : (0:ℤ) ≤ rexp x - 52 - a := by
    have := min_le_left (rexp x) (rexp y)
    omega
  have hay : (0:ℤ) ≤ rexp y - 52 - a := by
    have := min_le_right (rexp x) (rexp y)
    omega
  set Mx : ℤ := mx * 2 ^ (rexp x - 52 - a).toNat with hMx
  set My : ℤ := my * 2 ^ (rexp y - 52 - a).toNat with hMy
  have hxa : x = (Mx : ℚ) * (2:ℚ) ^ a := by
    rw [hMx]
    push_cast
    rw [← zpow_natCast (2:ℚ) (rexp x - 52 - a).toNat, Int.toNat_of_nonneg hax]
    rw [mul_assoc, ← zpow_add₀ (by norm_num : (2:ℚ) ≠ 0)]
    rw [show rexp x - 52 - a + a = rexp x - 52 by ring]
    exact hxd
  have hya : y = (My : ℚ) * (2:ℚ) ^ a := by
    rw [hMy]
    push_cast
    rw [← zpow_natCast (2:ℚ) (rexp y - 52 - a).toNat, Int.toNat_of_nonneg hay]
    rw [mul_assoc, ← zpow_add₀ (by norm_num : (2:ℚ) ≠ 0)]
    rw [show rexp y - 52 - a + a = rexp y - 52 by ring]
    exact hyd
  have hsub : x - y = ((Mx - My : ℤ) : ℚ) * (2:ℚ) ^ a := by
    rw [hxa, hya]
    push_cast
    ring
  have hdpos : (0:ℚ) < ((Mx - My : ℤ) : ℚ) := by
    have hd : (0:ℚ) < x - y := by linarith
    rw [hsub] at hd
    by_contra hcon
    push_neg at hcon
    have : ((Mx - My : ℤ) : ℚ) * (2:ℚ) ^ a ≤ 0 :=
      mul_nonpos_of_nonpos_of_nonneg hcon (two_zpow_pos a).le
    linarith
  have hxy_lt : x - y < (2:ℚ) ^ (min (rexp x) (rexp y) + 1) := by
    have hux : x < (2:ℚ) ^ (rexp x + 1) := by
      have := (rexp_spec x hxpos.ne').2
      rwa [abs_of_pos hxpos] at this
    have huy : y < (2:ℚ) ^ (rexp y + 1) := by
      have := (rexp_spec y h0.ne').2
      rwa [abs_of_pos h0] at this
    rcases le_total (rexp x) (rexp y) with hle | hle
    · rw [min_eq_left hle]
      linarith
    · rw [min_eq_right hle]
      linarith
  have hMlt : Mx - My < 2 ^ 53 := by
    have hq : ((Mx - My : ℤ) : ℚ) * (2:ℚ) ^ a < (2:ℚ) ^ (a + 53) := by
      rw [← hsub]
      calc x - y < (2:ℚ) ^ (min (rexp x) (rexp y) + 1) := hxy_lt
        _ = (2:ℚ) ^ (a + 53) := by
            rw [ha]
            ring_nf
    have hq2 : ((Mx - My : ℤ) : ℚ) < (2:ℚ) ^ (53 : ℤ) := by
      have hexp : (2:ℚ) ^ (a + 53) = (2:ℚ) ^ (53:ℤ) * (2:ℚ) ^ a := by
        rw [← zpow_add₀ (by norm_num : (2:ℚ) ≠ 0)]
        ring_nf
      rw [hexp] at hq
      exact lt_of_mul_lt_mul_right hq (two_zpow_pos a).le
    have : ((Mx - My : ℤ) : ℚ) < ((2 ^ 53 : ℤ) : ℚ) := by
      rwa [intCast_two_pow]
    exact_mod_cast this
  have habsM : |Mx - My| < 2 ^ 53 := by
    have : (0:ℤ) < Mx - My := by exact_mod_cast hdpos
    rw [abs_of_pos this]
    exact hMlt
  rw [hsub]
  exact rnd_dyadic _ _ habsM

/-! ## Float operations -/

/-- Float addition: exact rational sum rounded to binary64. -/
def fadd (a b : ℚ) : ℚ := rnd (qadd a b)

/-- Float subtraction: exact rational difference rounded to binary64. -/
def fsub (a b : ℚ) : ℚ := rnd (qsub a b)

/-- Float division: exact rational quotient rounded to binary64. -/
def fdivF (a b : ℚ) : ℚ := rnd (qdiv a b)

theorem fadd_eq (a b : ℚ) : fadd a b = rnd (a + b) := by rw [fadd, qadd_eq]

theorem fsub_eq (a b : ℚ) : fsub a b = rnd (a - b) := by rw [fsub, qsub_eq]

theorem fdivF_eq (a b : ℚ) : fdivF a b = rnd (a / b) := by rw [fdivF, qdiv_eq]

/-! ## The source model: `Bucket` and the fields of `Limit` it reads

`turnstile/limits.py`, lines 98-192 (`class Bucket`) and 627-686 (the
`value`, `unit_value` and `cost` properties of `Limit`). -/

/-- The fields of a `Limit` that the leaky-bucket algorithm reads:
`_value` and `_unit` are Python ints (`value` and `unit_value`). -/
structure LimitA where
  value : ℤ
  unit : ℤ
deriving DecidableEq

/-- `Limit.unit_value` as it enters float arithmetic: CPython converts
the int operand of a float subtraction to a double first. -/
def LimitA.unitF (l : LimitA) : ℚ := rnd (mkRat l.unit 1)

/-- `Limit.cost` (line 679-686): `float(self.unit_value) / float(self.value)`. -/
def LimitA.cost (l : LimitA) : ℚ := fdivF (rnd (mkRat l.unit 1)) (rnd (mkRat l.value 1))

/-- The persistent state of a `Bucket` (lines 108-125): `last` and
`next` are `None` or a float; `level` is a float. -/
structure BucketS where
  last : Option ℚ
  next : Option ℚ
  level : ℚ
deriving DecidableEq

/-- A fresh bucket: `last=None, next=None, level=0.0` (line 108). -/
def emptyB : BucketS := { last := none, next := none, level := mkRat 0 1 }

/-- The epsilon constant of `Bucket` (line 106): the Python float
literal `0.1`, i.e. the binary64 value nearest one tenth. -/
def epsF : ℚ := rnd (mkRat 1 10)

/-- `Bucket.delay` (lines 146-178), as a function from the bucket
state and the (float) timestamp `now` to the updated state and the
returned delay.  The `params` argument of the Python method is unused
by the method body and is omitted.  Layout of the translation:

* `if not self.last: self.last = now / elif now < self.last: now =
  self.last` — Python falsiness makes `last = 0` behave like `None`;
  `t0` is the value of `self.last` right after this block and `nowE`
  the (possibly clamped) value of `now`;
* `leaked = now - self.last`; `self.last = now`;
* `self.level = max(self.level - leaked, 0)`;
* `difference = self.level + self.limit.cost - self.limit.unit_value`;
* if `difference >= self.eps`: `self.next = now + difference`, return
  `difference`; else `self.level += self.limit.cost`, `self.next =
  now`, return `None`. -/
def delayF (lim : LimitA) (b : BucketS) (now : ℚ) : BucketS × Option ℚ :=
  let t0 : ℚ := match b.last with
    | none => now
    | some t => if t.num = 0 then now else t
  let nowE : ℚ := match b.last with
    | none => now
    | some t => if t.num = 0 then now else if Rat.blt now t then t else now
  let leaked := fsub nowE t0
  let level1 := qmax (fsub b.level leaked) (mkRat 0 1)
  let dif := fsub (fadd level1 lim.cost) lim.unitF
  if Rat.blt dif epsF then
    ({ last := some nowE, next := some nowE, level := fadd level1 lim.cost }, none)
  else
    ({ last := some nowE, next := some (fadd nowE dif), level := level1 }, some dif)

/-- The leak amount computed by one `delay` call (lines 152-159):
`now - self.last` after the initialization/clamping block. -/
def leakOf (b : BucketS) (now : ℚ) : ℚ :=
  let t0 : ℚ := match b.last with
    | none => now
    | some t => if t.num = 0 then now else t
  let nowE : ℚ := match b.last with
    | none => now
    | some t => if t.num = 0 then now else if Rat.blt now t then t else now
  fsub nowE t0

/-- Folding a sequence of `delay` calls over a bucket, discarding the
returned delays (the state evolution of repeated calls). -/
def delaySeq (lim : LimitA) (b : BucketS) (nows : List ℚ) : BucketS :=
  nows.foldl (fun s n => (delayF lim s n).1) b

/-- The effective timestamp of a `delay` call: `now`, except clamped to
`self.last` when `now < self.last` and `last` is truthy (lines 152-156). -/
def nowEff (b : BucketS) (now : ℚ) : ℚ :=
  match b.last with
  | none => now
  | some t => if t.num = 0 then now else if Rat.blt now t then t else now

/-- The water level right after the leak step (line 165):
`max(self.level - leaked, 0)`. -/
def levelLeaked (b : BucketS) (now : ℚ) : ℚ :=
  qmax (fsub b.level (leakOf b now)) (mkRat 0 1)

/-- The `difference` computed on line 168:
`self.level + self.limit.cost - self.limit.unit_value`, with the
post-leak level. -/
def overflowOf (lim : LimitA) (b : BucketS) (now : ℚ) : ℚ :=
  fsub (fadd (levelLeaked b now) lim.cost) lim.unitF

/-- `delayF` decomposed through the named intermediate quantities. -/
theorem delayF_decomp (lim : LimitA) (b : BucketS) (now : ℚ) :
    delayF lim b now =
      if Rat.blt (overflowOf lim b now) epsF then
        ({ last := some (nowEff b now), next := some (nowEff b now),
           level := fadd (levelLeaked b now) lim.cost }, none)
      else
        ({ last := some (nowEff b now),
           next := some (fadd (nowEff b now) (overflowOf lim b now)),
           level := levelLeaked b now }, some (overflowOf lim b now)) := rfl

theorem mkRat_zero_eq : (mkRat 0 1 : ℚ) = 0 := by
  rw [Rat.mkRat_eq_div]
  norm_num

theorem nowEff_truthy {b : BucketS} {t now : ℚ} (hlast : b.last = some t)
    (ht : t ≠ 0) (hnow : t ≤ now) : nowEff b now = now := by
  have hnum : ¬ t.num = 0 := fun h => ht (Rat.num_eq_zero.mp h)
  have hblt : Rat.blt now t = false := by
    cases hbb : Rat.blt now t with
    | false => rfl
    | true => exact absurd ((blt_iff now t).mp hbb) (not_lt.mpr hnow)
  simp only [nowEff, hlast]
  rw [if_neg hnum, hblt]
  simp

theorem leakOf_truthy {b : BucketS} {t now : ℚ} (hlast : b.last = some t)
    (ht : t ≠ 0) (hnow : t ≤ now) : leakOf b now = rnd (now - t) := by
  have hnum : ¬ t.num = 0 := fun h => ht (Rat.num_eq_zero.mp h)
  have hblt : Rat.blt now t = false := by
    cases hbb : Rat.blt now t with
    | false => rfl
    | true => exact absurd ((blt_iff now t).mp hbb) (not_lt.mpr hnow)
  simp only [leakOf, hlast]
  rw [if_neg hnum, if_neg hnum, hblt]
  simp only [Bool.false_eq_true, if_false]
  rw [fsub_eq]

theorem leakOf_clamped {b : BucketS} {t now : ℚ} (hlast : b.last = some t)
    (ht : t ≠ 0) (hnow : now < t) : leakOf b now = rnd (t - t) := by
  have hnum : ¬ t.num = 0 := fun h => ht (Rat.num_eq_zero.mp h)
  have hblt : Rat.blt now t = true := (blt_iff now t).mpr hnow
  simp only [leakOf, hlast]
  rw [if_neg hnum, if_neg hnum, hblt]
  simp only [if_true]
  rw [fsub_eq]

theorem leakOf_falsy {b : BucketS} {now : ℚ}
    (hlast : b.last = none ∨ b.last = some 0) : leakOf b now = 0 := by
  rcases hlast with h | h <;>
    simp [leakOf, h, fsub_eq, sub_self, rnd_zero]

theorem blt_false_iff (a b : ℚ) : Rat.blt a b = false ↔ b ≤ a := Iff.rfl

/-- C1.  With a truthy `last` (set and nonzero, the complement of the
code's `if not self.last` test) and `now >= last`, one `delay` call
leaks `now - last`, sets `last := now`, clamps the drained level at
zero, and compares the overflow `level + cost - unit_value` against
`eps = 0.1`: at or above the epsilon it stores `next := now +
overflow`, leaves the level unincremented and returns the overflow;
below it it adds the cost to the level, stores `next := now` and
returns `None`.  (All arithmetic is binary64 float arithmetic, as in
the source.) -/
theorem C1_delay_truthy (lim : LimitA) (b : BucketS) (t now : ℚ)
    (hlast : b.last = some t) (ht : t ≠ 0) (hnow : t ≤ now) :
    leakOf b now = rnd (now - t)
    ∧ levelLeaked b now = max (rnd (b.level - leakOf b now)) 0
    ∧ overflowOf lim b now = rnd (rnd (levelLeaked b now + lim.cost) - lim.unitF)
    ∧ (delayF lim b now).1.last = some now
    ∧ (epsF ≤ overflowOf lim b now →
        delayF lim b now =
          ({ last := some now, next := some (rnd (now + overflowOf lim b now)),
             level := levelLeaked b now }, some (overflowOf lim b now)))
    ∧ (overflowOf lim b now < epsF →
        delayF lim b now =
          ({ last := some now, next := some now,
             level := rnd (levelLeaked b now + lim.cost) }, none)) := by
  have hne := nowEff_truthy hlast ht hnow
  refine ⟨leakOf_truthy hlast ht hnow, ?_, ?_, ?_, ?_, ?_⟩
  · rw [levelLeaked, qmax_eq, fsub_eq, mkRat_zero_eq]
  · rw [overflowOf, fsub_eq, fadd_eq]
  · rw [delayF_decomp]
    split_ifs <;> simp [hne]
  · intro h
    have hblt : Rat.blt (overflowOf lim b now) epsF = false := (blt_false_iff _ _).mpr h
    rw [delayF_decomp, hblt]
    simp only [Bool.false_eq_true, if_false]
    rw [hne, fadd_eq]
  · intro h
    have hblt : Rat.blt (overflowOf lim b now) epsF = true := (blt_iff _ _).mpr h
    rw [delayF_decomp, hblt]
    simp only [if_true]
    rw [hne, fadd_eq]

theorem C1_delay_truthy_witness :
    leakOf { last := some (mkRat 999995 1), next := none, level := mkRat 100 1 }
        (mkRat 1000000 1) = rnd (mkRat 1000000 1 - mkRat 999995 1)
    ∧ (delayF ⟨10, 100⟩
        { last := some (mkRat 999995 1), next := none, level := mkRat 100 1 }
        (mkRat 1000000 1)).1.last = some (mkRat 1000000 1) :=
  ⟨(C1_delay_truthy ⟨10, 100⟩ _ (mkRat 999995 1) (mkRat 1000000 1) rfl
      (by decide) (by decide)).1,
   (C1_delay_truthy ⟨10, 100⟩ _ (mkRat 999995 1) (mkRat 1000000 1) rfl
      (by decide) (by decide)).2.2.2.1⟩

/-- The bucket of the near-boundary example: `last=999995`,
`level=95.1` (the Python float literal, i.e. the double nearest
951/10). -/
def bC2 : BucketS :=
  { last := some (mkRat 999995 1), next := none, level := rnd (mkRat 951 10) }

/-- The limit of the near-boundary example: `value=10`,
`unit_value=100`, so `cost = 10.0`. -/
def limC2 : LimitA := ⟨10, 100⟩

/-- The timestamp of the near-boundary example. -/
def nowC2 : ℚ := mkRat 1000000 1

/-- C2, counterexample.  At the claimed input the call does return
`None` (admission), but the computed overflow is not exactly 0.1 and
the resulting level is not exactly 100.1: binary64 rounding of the
literal 95.1 makes the overflow fall just short of one tenth. -/
theorem C2_counterexample :
    (delayF limC2 bC2 nowC2).2 = none
    ∧ overflowOf limC2 bC2 nowC2 ≠ mkRat 1 10
    ∧ (delayF limC2 bC2 nowC2).1.level ≠ mkRat 1001 10 := by
  refine ⟨by decide, by decide, by decide⟩

/-- C2, amended.  At `last=999995`, `level=float 95.1`, `cost=10`,
`unit_value=100`, `now=1000000`: the call leaks exactly 5 seconds
(level becomes the double nearest 90.1), computes the overflow
`7036874417766 * 2^-46 = 0.09999999999999432...`, which is strictly
below both one tenth and the float epsilon `0.1`, and therefore admits
the request: it returns `None`, sets `next := now` and raises the
level to the double nearest 100.1. -/
theorem C2_amended :
    leakOf bC2 nowC2 = mkRat 5 1
    ∧ levelLeaked bC2 nowC2 = rnd (mkRat 901 10)
    ∧ overflowOf limC2 bC2 nowC2 = mkRat 7036874417766 70368744177664
    ∧ overflowOf limC2 bC2 nowC2 < mkRat 1 10
    ∧ overflowOf limC2 bC2 nowC2 < epsF
    ∧ delayF limC2 bC2 nowC2 =
        ({ last := some nowC2, next := some nowC2,
           level := rnd (mkRat 1001 10) }, none) := by
  refine ⟨by decide, by decide, by decide, by decide, by decide, by decide⟩

/-- C10.  A stored `last` of `0` is falsy in Python, so `delay`
treats it exactly like an unset `last`: the whole call behaves as on
the same bucket with `last = None`, the leak is zero, and (when the
stored level is a float value, hence fixed by rounding, and
nonnegative) the leak step preserves the level instead of draining it
for the elapsed time since timestamp 0. -/
theorem C10_zero_last (lim : LimitA) (b : BucketS) (now : ℚ)
    (hlast : b.last = some 0) :
    delayF lim b now = delayF lim { b with last := none } now
    ∧ leakOf b now = 0
    ∧ (rnd b.level = b.level → 0 ≤ b.level → levelLeaked b now = b.level) := by
  refine ⟨?_, leakOf_falsy (Or.inr hlast), ?_⟩
  · simp [delayF, hlast]
  · intro hrep h0
    rw [levelLeaked, leakOf_falsy (Or.inr hlast), qmax_eq, fsub_eq, mkRat_zero_eq,
      sub_zero, hrep]
    exact max_eq_left h0

theorem C10_zero_last_witness :
    delayF ⟨1, 1⟩ { last := some 0, next := none, level := mkRat 3 2 } (mkRat 7 1)
      = delayF ⟨1, 1⟩ { last := none, next := none, level := mkRat 3 2 } (mkRat 7 1)
    ∧ levelLeaked { last := some 0, next := none, level := mkRat 3 2 } (mkRat 7 1)
      = mkRat 3 2 :=
  ⟨(C10_zero_last ⟨1, 1⟩ _ (mkRat 7 1) rfl).1,
   (C10_zero_last ⟨1, 1⟩ _ (mkRat 7 1) rfl).2.2 (by decide) (by decide)⟩

/-- Boolean test that a list of rationals is non-decreasing. -/
def nondecr : List ℚ → Bool
  | [] => true
  | [_] => true
  | a :: b :: rest => !(Rat.blt b a) && nondecr (b :: rest)

theorem nondecr_iff (l : List ℚ) : nondecr l = true ↔ List.Chain' (· ≤ ·) l := by
  induction l with
  | nil => simp [nondecr]
  | cons a r ih =>
    cases r with
    | nil => simp [nondecr]
    | cons b r2 =>
      rw [nondecr, List.chain'_cons, Bool.and_eq_true, Bool.not_eq_true']
      rw [ih]
      constructor
      · rintro ⟨h1, h2⟩
        exact ⟨(blt_false_iff b a).mp h1, h2⟩
      · rintro ⟨h1, h2⟩
        exact ⟨(blt_false_iff b a).mpr h1, h2⟩

/-- The limit of the C4 counterexample: `value=16`, `unit_value=1`,
so `cost = 1/16 = 0.0625`, below the epsilon `0.1`. -/
def limCex : LimitA := ⟨16, 1⟩

/-- The call sequence of the C4 counterexample: seventeen calls at
`now=100`, then one at `now=100.03125`. -/
def nowsCex : List ℚ := List.replicate 17 (mkRat 100 1) ++ [mkRat 3201 32]

/-- C4, counterexample.  On a bucket that starts empty, a
non-decreasing sequence of `delay` calls drives the level to
`1.09375`, strictly above `unit_value + cost = 1.0625`: the claimed
bound fails whenever the cost is smaller than the epsilon, because
admission only requires the overflow to stay below `eps = 0.1`. -/
theorem C4_counterexample :
    List.Chain' (· ≤ ·) nowsCex
    ∧ emptyB.level = 0
    ∧ (delaySeq limCex emptyB nowsCex).level = mkRat 35 32
    ∧ (limCex.unit : ℚ) + limCex.cost < (delaySeq limCex emptyB nowsCex).level := by
  refine ⟨(nondecr_iff nowsCex).mp (by decide), by rw [emptyB, mkRat_zero_eq],
    by decide, ?_⟩
  have h : Rat.blt (qadd (mkRat limCex.unit 1) limCex.cost)
      (delaySeq limCex emptyB nowsCex).level = true := by decide
  have h2 := (blt_iff _ _).mp h
  rwa [qadd_eq, mkRat_intCast] at h2

theorem rnd_lower {q : ℚ} (h : 0 < q) : q * (1 - (2:ℚ) ^ (-53 : ℤ)) ≤ rnd q := by
  have herr := rnd_err_rel q
  rw [abs_of_pos h] at herr
  have h1 := (abs_le.mp herr).1
  have h2 : q * (1 - (2:ℚ) ^ (-53 : ℤ)) = q - q * (2:ℚ) ^ (-53 : ℤ) := by ring
  linarith

theorem cost_pos (lim : LimitA) (hv : 1 ≤ lim.value) (hu : 1 ≤ lim.unit) :
    0 < lim.cost := by
  rw [LimitA.cost, fdivF_eq]
  apply rnd_pos
  apply div_pos
  · rw [mkRat_intCast]
    apply rnd_pos
    exact_mod_cast lt_of_lt_of_le Int.zero_lt_one hu
  · rw [mkRat_intCast]
    apply rnd_pos
    exact_mod_cast lt_of_lt_of_le Int.zero_lt_one hv

theorem epsF_pos : 0 < epsF := by
  rw [← mkRat_zero_eq]
  decide

theorem epsF_lt_one_sub : epsF < 1 - (2:ℚ) ^ (-53 : ℤ) := by
  have h1 : (2:ℚ) ^ (-53 : ℤ) = mkRat 1 9007199254740992 := by
    rw [← pow2_eq]
    decide
  have h2 : (1:ℚ) - mkRat 1 9007199254740992 = mkRat 9007199254740991 9007199254740992 := by
    rw [Rat.mkRat_eq_div, Rat.mkRat_eq_div]
    norm_num
  rw [h1, h2]
  decide

theorem leak_nonneg (b : BucketS) (now : ℚ) : 0 ≤ leakOf b now := by
  rcases hb : b.last with _ | t
  · rw [leakOf_falsy (Or.inl hb)]
  · by_cases ht : t = 0
    · subst ht
      rw [leakOf_falsy (Or.inr hb)]
    · rcases le_or_lt t now with h | h
      · rw [leakOf_truthy hb ht h]
        exact rnd_nonneg (by linarith)
      · rw [leakOf_clamped hb ht h, sub_self, rnd_zero]

theorem levelLeaked_eq (b : BucketS) (now : ℚ) :
    levelLeaked b now = max (rnd (b.level - leakOf b now)) 0 := by
  rw [levelLeaked, qmax_eq, fsub_eq, mkRat_zero_eq]

theorem levelLeaked_nonneg (b : BucketS) (now : ℚ) : 0 ≤ levelLeaked b now := by
  rw [levelLeaked_eq]
  exact le_max_right _ _

theorem levelLeaked_rep (b : BucketS) (now : ℚ) :
    rnd (levelLeaked b now) = levelLeaked b now := by
  rw [levelLeaked_eq]
  rcases le_total (rnd (b.level - leakOf b now)) 0 with h | h
  · rw [max_eq_right h, rnd_zero]
  · rw [max_eq_left h]
    exact rnd_idem _

theorem levelLeaked_le (b : BucketS) (now : ℚ) (h0 : 0 ≤ b.level)
    (hrep : rnd b.level = b.level) : levelLeaked b now ≤ b.level := by
  rw [levelLeaked_eq]
  rcases le_or_lt (b.level - leakOf b now) 0 with h | h
  · rw [max_eq_right (rnd_nonpos h)]
    exact h0
  · have hz : rnd (b.level - leakOf b now) ≤ b.level := by
      calc rnd (b.level - leakOf b now) ≤ rnd b.level :=
            rnd_mono_nonneg h.le (sub_le_self _ (leak_nonneg b now))
        _ = b.level := hrep
    rw [max_eq_left (rnd_nonneg h.le)]
    exact hz

/-- The leaky-bucket level invariant: the level is a nonnegative
float value bounded by `unit_value + max(cost, eps)`. -/
def GoodB (lim : LimitA) (st : BucketS) : Prop :=
  0 ≤ st.level ∧ rnd st.level = st.level
    ∧ st.level ≤ (lim.unit : ℚ) + max lim.cost epsF

theorem delay_step_good (lim : LimitA) (hv : 1 ≤ lim.value) (hu : 1 ≤ lim.unit)
    (hrepu : rnd (mkRat lim.unit 1) = mkRat lim.unit 1)
    (st : BucketS) (now : ℚ) (hg : GoodB lim st) :
    GoodB lim (delayF lim st now).1 := by
  obtain ⟨h0, hrep, hb⟩ := hg
  have huQ : (1:ℚ) ≤ (lim.unit : ℚ) := by exact_mod_cast hu
  have hupos : (0:ℚ) < (lim.unit : ℚ) := by linarith
  have hunitF : lim.unitF = (lim.unit : ℚ) := by
    rw [LimitA.unitF, hrepu, mkRat_intCast]
  have hrepuQ : rnd ((lim.unit : ℤ) : ℚ) = ((lim.unit : ℤ) : ℚ) := by
    rw [← mkRat_intCast]
    exact hrepu
  have hcost := cost_pos lim hv hu
  have hmax0 : 0 < max lim.cost epsF := lt_of_lt_of_le epsF_pos (le_max_right _ _)
  have hL0 := levelLeaked_nonneg st now
  have hLrep := levelLeaked_rep st now
  have hLle : levelLeaked st now ≤ (lim.unit : ℚ) + max lim.cost epsF :=
    le_trans (levelLeaked_le st now h0 hrep) hb
  rw [delayF_decomp]
  cases hblt : Rat.blt (overflowOf lim st now) epsF with
  | false =>
    simp only [hblt, Bool.false_eq_true, if_false]
    exact ⟨hL0, hLrep, hLle⟩
  | true =>
    simp only [hblt, if_true]
    have hdlt : overflowOf lim st now < epsF := (blt_iff _ _).mp hblt
    have hO : overflowOf lim st now
        = rnd (rnd (levelLeaked st now + lim.cost) - (lim.unit : ℚ)) := by
      rw [overflowOf, fsub_eq, fadd_eq, hunitF]
    have hTnn : 0 ≤ levelLeaked st now + lim.cost := by linarith
    refine ⟨?_, ?_, ?_⟩
    · show 0 ≤ fadd (levelLeaked st now) lim.cost
      rw [fadd_eq]
      exact rnd_nonneg hTnn
    · show rnd (fadd (levelLeaked st now) lim.cost) = fadd (levelLeaked st now) lim.cost
      rw [fadd_eq]
      exact rnd_idem _
    · show fadd (levelLeaked st now) lim.cost ≤ (lim.unit : ℚ) + max lim.cost epsF
      rw [fadd_eq]
      set T := rnd (levelLeaked st now + lim.cost) with hT
      rcases le_or_lt T ((lim.unit : ℤ) : ℚ) with hle | hgt
      · linarith
      · rcases le_or_lt T (2 * ((lim.unit : ℤ) : ℚ)) with h2u | h2u
        · have hrepT : rnd T = T := by
            rw [hT]
            exact rnd_idem _
          have hst := sterbenz hrepT hrepuQ hupos hgt h2u
          rw [hO, hst] at hdlt
          have hme : epsF ≤ max lim.cost epsF := le_max_right _ _
          linarith
        · exfalso
          have hdiff : (0:ℚ) < T - (lim.unit : ℚ) := by linarith
          have hlow := rnd_lower hdiff
          have hub : (lim.unit : ℚ) < T - (lim.unit : ℚ) := by linarith
          have hdp : (0:ℚ) < 1 - (2:ℚ) ^ (-53:ℤ) := by
            linarith [epsF_lt_one_sub, epsF_pos]
          have hc1 : (1:ℚ) * (1 - (2:ℚ) ^ (-53:ℤ))
              ≤ (lim.unit : ℚ) * (1 - (2:ℚ) ^ (-53:ℤ)) :=
            mul_le_mul_of_nonneg_right huQ hdp.le
          have hc2 : (lim.unit : ℚ) * (1 - (2:ℚ) ^ (-53:ℤ))
              ≤ (T - (lim.unit : ℚ)) * (1 - (2:ℚ) ^ (-53:ℤ)) :=
            mul_le_mul_of_nonneg_right hub.le hdp.le
          rw [hO] at hdlt
          have hone : (1:ℚ) * (1 - (2:ℚ) ^ (-53:ℤ)) = 1 - (2:ℚ) ^ (-53:ℤ) := one_mul _
          have heps := epsF_lt_one_sub
          linarith

theorem emptyB_good (lim : LimitA) (hu : 1 ≤ lim.unit) :
    GoodB lim emptyB := by
  have huQ : (1:ℚ) ≤ (lim.unit : ℚ) := by exact_mod_cast hu
  have hmax0 : 0 < max lim.cost epsF := lt_of_lt_of_le epsF_pos (le_max_right _ _)
  refine ⟨?_, ?_, ?_⟩
  · show 0 ≤ (mkRat 0 1 : ℚ)
    rw [mkRat_zero_eq]
  · show rnd (mkRat 0 1 : ℚ) = (mkRat 0 1 : ℚ)
    rw [mkRat_zero_eq, rnd_zero]
  · show (mkRat 0 1 : ℚ) ≤ (lim.unit : ℚ) + max lim.cost epsF
    rw [mkRat_zero_eq]
    linarith

theorem delaySeq_good (lim : LimitA) (hv : 1 ≤ lim.value) (hu : 1 ≤ lim.unit)
    (hrepu : rnd (mkRat lim.unit 1) = mkRat lim.unit 1)
    (nows : List ℚ) : GoodB lim (delaySeq lim emptyB nows) := by
  suffices h : ∀ (l : List ℚ) (st : BucketS), GoodB lim st → GoodB lim (delaySeq lim st l) by
    exact h nows emptyB (emptyB_good lim hu)
  intro l
  induction l with
  | nil => intro st hst; exact hst
  | cons n rest ih =>
    intro st hst
    exact ih _ (delay_step_good lim hv hu hrepu st n hst)

theorem nowEff_of_le {b : BucketS} {t now : ℚ} (hlast : b.last = some t)
    (ht : t ≤ now) : nowEff b now = now := by
  simp only [nowEff, hlast]
  by_cases h : t.num = 0
  · rw [if_pos h]
  · rw [if_neg h]
    have hblt : Rat.blt now t = false := (blt_false_iff now t).mpr ht
    rw [hblt]
    simp

theorem nowEff_none {b : BucketS} (hlast : b.last = none) (now : ℚ) :
    nowEff b now = now := by
  simp only [nowEff, hlast]

theorem delay_last (lim : LimitA) (b : BucketS) (now : ℚ) :
    (delayF lim b now).1.last = some (nowEff b now) := by
  rw [delayF_decomp]
  split_ifs <;> rfl

theorem delaySeq_last (lim : LimitA) :
    ∀ (nows : List ℚ) (st : BucketS) (t : ℚ), st.last = some t →
      List.Chain' (· ≤ ·) (t :: nows) →
      (delaySeq lim st nows).last = some ((t :: nows).getLast (List.cons_ne_nil _ _)) := by
  intro nows
  induction nows with
  | nil =>
    intro st t hlast hch
    simpa [delaySeq] using hlast
  | cons n rest ih =>
    intro st t hlast hch
    rw [List.chain'_cons] at hch
    have hstep : (delayF lim st n).1.last = some n := by
      rw [delay_last, nowEff_of_le hlast hch.1]
    have hrec := ih (delayF lim st n).1 n hstep hch.2
    rw [show delaySeq lim st (n :: rest) = delaySeq lim (delayF lim st n).1 rest from rfl]
    rw [hrec, List.getLast_cons_cons]

theorem delaySeq_last_mono (lim : LimitA) (n1 n2 : List ℚ) (x : ℚ)
    (hch : List.Chain' (· ≤ ·) (n1 ++ n2))
    (hx : (delaySeq lim emptyB n1).last = some x) :
    ∃ y, (delaySeq lim emptyB (n1 ++ n2)).last = some y ∧ x ≤ y := by
  cases n1 with
  | nil =>
    rw [show delaySeq lim emptyB [] = emptyB from rfl] at hx
    cases hx
  | cons a r1 =>
    obtain ⟨hchL, hchR, hcross⟩ := List.chain'_append.mp hch
    have hfirst : (delayF lim emptyB a).1.last = some a := by
      rw [delay_last, nowEff_none rfl]
    have hx1 : (delaySeq lim emptyB (a :: r1)).last
        = some ((a :: r1).getLast (List.cons_ne_nil _ _)) :=
      delaySeq_last lim r1 (delayF lim emptyB a).1 a hfirst hchL
    rw [hx1] at hx
    have hxeq : x = (a :: r1).getLast (List.cons_ne_nil _ _) := (Option.some_inj.mp hx).symm
    cases n2 with
    | nil =>
      refine ⟨x, ?_, le_rfl⟩
      rw [List.append_nil, hx1, hxeq]
    | cons c r3 =>
      have hchW : List.Chain' (· ≤ ·) (a :: (r1 ++ c :: r3)) := hch
      have hwhole : (delaySeq lim emptyB ((a :: r1) ++ c :: r3)).last
          = some ((a :: (r1 ++ c :: r3)).getLast (List.cons_ne_nil _ _)) :=
        delaySeq_last lim (r1 ++ c :: r3) (delayF lim emptyB a).1 a hfirst hchW
      refine ⟨(a :: (r1 ++ c :: r3)).getLast (List.cons_ne_nil _ _), hwhole, ?_⟩
      have hglast : (a :: (r1 ++ c :: r3)).getLast (List.cons_ne_nil _ _)
          = (c :: r3).getLast (List.cons_ne_nil _ _) :=
        List.getLast_append' (a :: r1) (c :: r3) (List.cons_ne_nil _ _)
      have hpw := (List.chain'_iff_pairwise).mp hchR
      have hc_le : c ≤ (c :: r3).getLast (List.cons_ne_nil _ _) := by
        cases r3 with
        | nil => simp
        | cons d r4 =>
          have hmem : (c :: d :: r4).getLast (List.cons_ne_nil _ _) ∈ d :: r4 := by
            rw [List.getLast_cons (List.cons_ne_nil _ _)]
            exact List.getLast_mem _
          exact (List.pairwise_cons.mp hpw).1 _ hmem
      have hcross' : (a :: r1).getLast (List.cons_ne_nil _ _) ≤ c := by
        apply hcross
        · rw [List.getLast?_eq_getLast_of_ne_nil (List.cons_ne_nil _ _)]
          rfl
        · rfl
      rw [hxeq, hglast]
      exact le_trans hcross' hc_le

/-- C4, amended.  One `delay` call with `now` earlier than a truthy
`last` behaves exactly as a call at `now = last` (the clamp), the leak
amount is never negative, and for every sequence of calls on a bucket
that starts empty the level stays within `[0, unit_value + max(cost,
eps)]`; for non-decreasing `now` sequences the stored `last` is
non-decreasing across the sequence.  (The original bound `unit_value +
cost` fails when `cost < eps`; the epsilon enters because admission
only requires the overflow to stay below `eps = 0.1`.) -/
theorem C4_amended (lim : LimitA) (hv : 1 ≤ lim.value) (hu : 1 ≤ lim.unit)
    (hrepu : rnd (mkRat lim.unit 1) = mkRat lim.unit 1) :
    (∀ (b : BucketS) (t now : ℚ), b.last = some t → t ≠ 0 → now < t →
      delayF lim b now = delayF lim b t)
    ∧ (∀ (b : BucketS) (now : ℚ), 0 ≤ leakOf b now)
    ∧ (∀ nows : List ℚ,
        0 ≤ (delaySeq lim emptyB nows).level
        ∧ (delaySeq lim emptyB nows).level ≤ (lim.unit : ℚ) + max lim.cost epsF)
    ∧ (∀ (n1 n2 : List ℚ) (x : ℚ), List.Chain' (· ≤ ·) (n1 ++ n2) →
        (delaySeq lim emptyB n1).last = some x →
        ∃ y, (delaySeq lim emptyB (n1 ++ n2)).last = some y ∧ x ≤ y) := by
  refine ⟨?_, leak_nonneg, ?_, ?_⟩
  · intro b t now hlast ht hnow
    have hnum : ¬ t.num = 0 := fun h => ht (Rat.num_eq_zero.mp h)
    have h1 : nowEff b now = nowEff b t := by
      simp only [nowEff, hlast]
      rw [if_neg hnum, if_neg hnum, (blt_iff now t).mpr hnow,
        (blt_false_iff t t).mpr le_rfl]
      simp
    have h2 : leakOf b now = leakOf b t := by
      rw [leakOf_clamped hlast ht hnow, leakOf_truthy hlast ht le_rfl]
    have h3 : levelLeaked b now = levelLeaked b t := by
      rw [levelLeaked, levelLeaked, h2]
    have h4 : overflowOf lim b now = overflowOf lim b t := by
      rw [overflowOf, overflowOf, h3]
    rw [delayF_decomp, delayF_decomp, h1, h3, h4]
  · intro nows
    obtain ⟨ha, hb, hc⟩ := delaySeq_good lim hv hu hrepu nows
    exact ⟨ha, hc⟩
  · intro n1 n2 x hch hx
    exact delaySeq_last_mono lim n1 n2 x hch hx

theorem C4_amended_witness :
    (0 ≤ (delaySeq ⟨10, 100⟩ emptyB [mkRat 5 1]).level
      ∧ (delaySeq ⟨10, 100⟩ emptyB [mkRat 5 1]).level
        ≤ ((100 : ℤ) : ℚ) + max (LimitA.cost ⟨10, 100⟩) epsF)
    ∧ 0 ≤ leakOf emptyB (mkRat 5 1) :=
  ⟨(C4_amended ⟨10, 100⟩ (by decide) (by decide) (by decide)).2.2.1 [mkRat 5 1],
   (C4_amended ⟨10, 100⟩ (by decide) (by decide) (by decide)).2.1 emptyB (mkRat 5 1)⟩

/-! ## Bucket keys: percent escaping and the structured-value codec

`turnstile/limits.py` lines 27-46 (`_encode` / `_decode`) and lines
455-504 (`Limit.decode` / `Limit.key`).  Strings are `List Char`. -/

/-- Split a character list on a separator, like Python `str.split`:
empty pieces are preserved and the result is always nonempty. -/
def splitOnC (sep : Char) : List Char → List (List Char)
  | [] => [[]]
  | c :: r =>
    match splitOnC sep r with
    | [] => [[]]
    | s :: ss => if c = sep then [] :: s :: ss else (c :: s) :: ss

/-- Partition a character list at the first `=`, like Python
`str.partition('=')`; `none` when there is no `=`. -/
def partEq : List Char → Option (List Char × List Char)
  | [] => none
  | c :: r =>
    if c = '=' then some ([], r)
    else (partEq r).map (fun ab => (c :: ab.1, ab.2))

theorem splitOnC_ne_nil (sep : Char) (l : List Char) : splitOnC sep l ≠ [] := by
  cases l with
  | nil => simp [splitOnC]
  | cons c r =>
    rw [splitOnC]
    rcases h : splitOnC sep r with _ | ⟨s, ss⟩
    · simp
    · by_cases hc : c = sep <;> simp [hc]

theorem splitOnC_cons_eq (sep c : Char) (r s : List Char) (ss : List (List Char))
    (h : splitOnC sep r = s :: ss) :
    splitOnC sep (c :: r) = if c = sep then [] :: s :: ss else (c :: s) :: ss := by
  rw [splitOnC, h]

theorem splitOnC_no_sep (sep : Char) (l : List Char) (h : sep ∉ l) :
    splitOnC sep l = [l] := by
  induction l with
  | nil => rfl
  | cons c r ih =>
    have hc : c ≠ sep := fun hc => h (hc ▸ List.mem_cons_self _ _)
    rw [splitOnC_cons_eq sep c r r [] (ih (fun hm => h (List.mem_cons_of_mem _ hm))),
      if_neg hc]

theorem splitOnC_append (sep : Char) (a b : List Char) (h : sep ∉ a) :
    splitOnC sep (a ++ sep :: b) = a :: splitOnC sep b := by
  induction a with
  | nil =>
    rcases hb : splitOnC sep b with _ | ⟨s, ss⟩
    · exact absurd hb (splitOnC_ne_nil sep b)
    · rw [List.nil_append, splitOnC_cons_eq sep sep b s ss hb, if_pos rfl]
  | cons c r ih =>
    have hc : c ≠ sep := fun hc => h (hc ▸ List.mem_cons_self _ _)
    have hr := ih (fun hm => h (List.mem_cons_of_mem _ hm))
    rcases hb : splitOnC sep (r ++ sep :: b) with _ | ⟨s, ss⟩
    · exact absurd hb (splitOnC_ne_nil sep _)
    · have : r :: splitOnC sep b = s :: ss := hb ▸ hr.symm ▸ rfl
      rw [List.cons_append, splitOnC_cons_eq sep c _ s ss hb, if_neg hc]
      rw [hr] at hb
      cases hb
      rfl

theorem partEq_none (p : List Char) (h : '=' ∉ p) : partEq p = none := by
  induction p with
  | nil => rfl
  | cons c r ih =>
    have hc : c ≠ '=' := fun hc => h (hc ▸ List.mem_cons_self _ _)
    rw [partEq, if_neg hc, ih (fun hm => h (List.mem_cons_of_mem _ hm))]
    rfl

theorem partEq_append (name rest : List Char) (h : '=' ∉ name) :
    partEq (name ++ '=' :: rest) = some (name, rest) := by
  induction name with
  | nil =>
    rw [List.nil_append, partEq, if_pos rfl]
  | cons c r ih =>
    have hc : c ≠ '=' := fun hc => h (hc ▸ List.mem_cons_self _ _)
    rw [List.cons_append, partEq, if_neg hc, ih (fun hm => h (List.mem_cons_of_mem _ hm))]
    rfl

/-- The value of a hexadecimal digit character (either case), as used
by the `%`-decoding regular expression. -/
def hexVal (c : Char) : Option ℕ :=
  if 48 ≤ c.toNat ∧ c.toNat ≤ 57 then some (c.toNat - 48)
  else if 97 ≤ c.toNat ∧ c.toNat ≤ 102 then some (c.toNat - 87)
  else if 65 ≤ c.toNat ∧ c.toNat ≤ 70 then some (c.toNat - 55)
  else none

/-- `_encode`'s escaping step (lines 27-35): replace `/` by `%2f` and
`%` by `%25` (lowercase hex, as produced by `'%%%2x' % ord`). -/
def pctEsc : List Char → List Char
  | [] => []
  | c :: r =>
    if c = '/' then '%' :: '2' :: 'f' :: pctEsc r
    else if c = '%' then '%' :: '2' :: '5' :: pctEsc r
    else c :: pctEsc r

/-- `_decode`'s unescaping step (lines 38-46): replace each leftmost
`%hh` hex group by the corresponding character. -/
def pctUnesc : List Char → List Char
  | [] => []
  | '%' :: h1 :: h2 :: r =>
    match hexVal h1, hexVal h2 with
    | some a, some b => Char.ofNat (16 * a + b) :: pctUnesc r
    | _, _ => '%' :: pctUnesc (h1 :: h2 :: r)
  | c :: r => c :: pctUnesc r

theorem pctUnesc_cons_ne (c : Char) (X : List Char) (hc : c ≠ '%') :
    pctUnesc (c :: X) = c :: pctUnesc X := by
  rw [pctUnesc.eq_def]
  split
  · rename_i heq
    cases heq
  · rename_i h1 h2 r heq
    injection heq with heqc heqr
    exact absurd heqc hc
  · rename_i c2 r2 hno heq
    injection heq with heqc heqr
    subst heqc
    subst heqr
    rfl

theorem pctUnesc_pctEsc (s : List Char) : pctUnesc (pctEsc s) = s := by
  induction s with
  | nil => rfl
  | cons c r ih =>
    rw [pctEsc]
    by_cases h1 : c = '/'
    · rw [if_pos h1, h1]
      show Char.ofNat (16 * 2 + 15) :: pctUnesc (pctEsc r) = '/' :: r
      rw [ih, show Char.ofNat (16 * 2 + 15) = '/' from by decide]
    · rw [if_neg h1]
      by_cases h2 : c = '%'
      · rw [if_pos h2, h2]
        show Char.ofNat (16 * 2 + 5) :: pctUnesc (pctEsc r) = '%' :: r
        rw [ih, show Char.ofNat (16 * 2 + 5) = '%' from by decide]
      · rw [if_neg h2, pctUnesc_cons_ne c _ h2, ih]

theorem pctEsc_no_slash (s : List Char) : '/' ∉ pctEsc s := by
  induction s with
  | nil => simp [pctEsc]
  | cons c r ih =>
    rw [pctEsc]
    by_cases h1 : c = '/'
    · rw [if_pos h1]
      intro hm
      rcases List.mem_cons.mp hm with h | hm2
      · exact absurd h (by decide)
      rcases List.mem_cons.mp hm2 with h | hm3
      · exact absurd h (by decide)
      rcases List.mem_cons.mp hm3 with h | hm4
      · exact absurd h (by decide)
      exact ih hm4
    · rw [if_neg h1]
      by_cases h2 : c = '%'
      · rw [if_pos h2]
        intro hm
        rcases List.mem_cons.mp hm with h | hm2
        · exact absurd h (by decide)
        rcases List.mem_cons.mp hm2 with h | hm3
        · exact absurd h (by decide)
        rcases List.mem_cons.mp hm3 with h | hm4
        · exact absurd h (by decide)
        exact ih hm4
      · rw [if_neg h2]
        intro hm
        rcases List.mem_cons.mp hm with h | hm2
        · exact h1 h.symm
        · exact ih hm2

/-! ## A JSON fragment

`_encode`/`_decode` serialize parameter values with `json.dumps` /
`json.loads`.  The fragment modelled here covers strings of printable
ASCII characters, integers, and nested arrays — enough for the bucket
key round-trip including values containing `/`, `%` and quote
characters.  `jdump` mirrors `json.dumps` output (default separators,
backslash escapes for quote and backslash). -/

mutual
inductive JV where
  | jstr : List Char → JV
  | jint : ℤ → JV
  | jarr : JL → JV
deriving DecidableEq
inductive JL where
  | jnil : JL
  | jcons : JV → JL → JL
deriving DecidableEq
end

mutual
/-- Structure size, used as parser fuel bound. -/
def sizeV : JV → ℕ
  | .jstr _ => 1
  | .jint _ => 1
  | .jarr l => sizeL l + 1
def sizeL : JL → ℕ
  | .jnil => 0
  | .jcons v l => sizeV v + sizeL l + 1
end

/-- Printable ASCII, the range over which `escChar` models the
`json.dumps` string escaping exactly (quote and backslash are escaped,
everything else in the range passes through unchanged). -/
def goodChar (c : Char) : Bool := 32 ≤ c.toNat && c.toNat ≤ 126

/-- Escaping of one string character as in `json.dumps`. -/
def escChar (c : Char) : List Char :=
  if c = '"' then ['\\', '"'] else if c = '\\' then ['\\', '\\'] else [c]

/-- Escaping of a whole string body. -/
def escStr : List Char → List Char
  | [] => []
  | c :: r => escChar c ++ escStr r

/-- Decimal digit character. -/
def digitChar (d : ℕ) : Char :=
  match d with
  | 0 => '0' | 1 => '1' | 2 => '2' | 3 => '3' | 4 => '4'
  | 5 => '5' | 6 => '6' | 7 => '7' | 8 => '8' | _ => '9'

/-- Decimal digits of a natural number, most significant first;
fuel-driven so it evaluates in the kernel. -/
def natDumpF : ℕ → ℕ → List Char
  | 0, _ => []
  | f + 1, n => if n = 0 then [] else natDumpF f (n / 10) ++ [digitChar (n % 10)]

/-- Decimal representation of a natural number. -/
def natDump (n : ℕ) : List Char := if n = 0 then ['0'] else natDumpF n n

/-- Decimal representation of an integer, as `repr` / `json.dumps`. -/
def intDump (n : ℤ) : List Char :=
  if n < 0 then '-' :: natDump (-n).toNat else natDump n.toNat

mutual
/-- `json.dumps` on the fragment (default separators `', '`). -/
def jdump : JV → List Char
  | .jstr s => '"' :: escStr s ++ ['"']
  | .jint n => intDump n
  | .jarr l => '[' :: jdumpL l ++ [']']
def jdumpL : JL → List Char
  | .jnil => []
  | .jcons v .jnil => jdump v
  | .jcons v (.jcons w l) => jdump v ++ ',' :: ' ' :: jdumpL (.jcons w l)
end

mutual
/-- Well-formedness: string contents are printable ASCII. -/
def wfV : JV → Bool
  | .jstr s => s.all goodChar
  | .jint _ => true
  | .jarr l => wfL l
def wfL : JL → Bool
  | .jnil => true
  | .jcons v l => wfV v && wfL l
end

/-- Is the character a decimal digit? -/
def isDig (c : Char) : Bool := 48 ≤ c.toNat && c.toNat ≤ 57

/-- Does the input start with a digit? -/
def headDig : List Char → Bool
  | c :: _ => isDig c
  | [] => false

/-- Greedily read decimal digits, accumulating their value. -/
def readNat (acc : ℕ) : List Char → ℕ × List Char
  | [] => (acc, [])
  | c :: r => if isDig c then readNat (acc * 10 + (c.toNat - 48)) r else (acc, c :: r)

/-- Parse an optionally signed decimal integer. -/
def parseInt : List Char → Option (ℤ × List Char)
  | '-' :: r =>
    if headDig r then
      let p := readNat 0 r
      some (-(p.1 : ℤ), p.2)
    else none
  | cs =>
    if headDig cs then
      let p := readNat 0 cs
      some ((p.1 : ℤ), p.2)
    else none

/-- Skip spaces. -/
def skipSp : List Char → List Char
  | ' ' :: r => skipSp r
  | cs => cs

/-- Parse a string body up to the closing quote, undoing backslash
escapes. -/
def parseStr : List Char → Option (List Char × List Char)
  | [] => none
  | '"' :: r => some ([], r)
  | '\\' :: c :: r => (parseStr r).map (fun sr => (c :: sr.1, sr.2))
  | c :: r => (parseStr r).map (fun sr => (c :: sr.1, sr.2))

mutual
/-- Fuel-driven recursive-descent parser for the JSON fragment. -/
def parseV : ℕ → List Char → Option (JV × List Char)
  | 0, _ => none
  | f + 1, cs =>
    match cs with
    | '"' :: r => (parseStr r).map (fun sr => (JV.jstr sr.1, sr.2))
    | '[' :: r =>
      if (skipSp r).head? = some ']' then some (.jarr .jnil, (skipSp r).tail)
      else (parseItems f (skipSp r)).map (fun lr => (JV.jarr lr.1, lr.2))
    | cs' => (parseInt cs').map (fun nr => (JV.jint nr.1, nr.2))
def parseItems : ℕ → List Char → Option (JL × List Char)
  | 0, _ => none
  | f + 1, cs =>
    match parseV f cs with
    | none => none
    | some (v, r) =>
      if (skipSp r).head? = some ',' then
        (parseItems f (skipSp (skipSp r).tail)).map (fun lr => (JL.jcons v lr.1, lr.2))
      else if (skipSp r).head? = some ']' then some (.jcons v .jnil, (skipSp r).tail)
      else none
end

/-- `json.loads` on the fragment: parse a complete value. -/
def jparse (cs : List Char) : Option JV :=
  match parseV (cs.length + 1) cs with
  | some (v, []) => some v
  | _ => none

/-- `_encode` (lines 31-35): serialize, then percent-escape. -/
def encVal (v : JV) : List Char := pctEsc (jdump v)

/-- `_decode` (lines 42-46): percent-unescape, then parse. -/
def decVal (cs : List Char) : Option JV := jparse (pctUnesc cs)

theorem readNat_stop (a : ℕ) (rest : List Char) (h : headDig rest = false) :
    readNat a rest = (a, rest) := by
  cases rest with
  | nil => rfl
  | cons c r =>
    have hc : isDig c = false := h
    rw [readNat, if_neg (by rw [hc]; exact Bool.false_ne_true)]

theorem digitChar_spec (d : ℕ) (h : d < 10) :
    isDig (digitChar d) = true ∧ (digitChar d).toNat - 48 = d := by
  interval_cases d <;> exact ⟨by decide, by decide⟩

theorem readNat_natDumpF : ∀ f n : ℕ, n ≤ f → ∀ (acc : ℕ) (tail : List Char),
    readNat acc (natDumpF f n ++ tail)
      = readNat (acc * 10 ^ (natDumpF f n).length + n) tail := by
  intro f
  induction f with
  | zero =>
    intro n hn acc tail
    have h0 : n = 0 := by omega
    subst h0
    rw [natDumpF]
    simp
  | succ f ih =>
    intro n hn acc tail
    by_cases h0 : n = 0
    · subst h0
      rw [natDumpF, if_pos rfl]
      simp
    · rw [natDumpF, if_neg h0]
      obtain ⟨hd1, hd2⟩ := digitChar_spec (n % 10) (Nat.mod_lt n (by norm_num))
      rw [List.append_assoc, List.cons_append, List.nil_append,
        ih (n / 10) (by omega) acc (digitChar (n % 10) :: tail)]
      rw [readNat, if_pos hd1, hd2]
      rw [List.length_append, List.length_singleton]
      congr 1
      have hmod := Nat.div_add_mod n 10
      ring_nf
      omega

theorem natDumpF_all_dig : ∀ f n : ℕ, ∀ c ∈ natDumpF f n, isDig c = true := by
  intro f
  induction f with
  | zero => intro n c hc; cases hc
  | succ f ih =>
    intro n c hc
    rw [natDumpF] at hc
    by_cases h0 : n = 0
    · rw [if_pos h0] at hc
      cases hc
    · rw [if_neg h0] at hc
      rcases List.mem_append.mp hc with h | h
      · exact ih _ c h
      · rcases List.mem_singleton.mp h with rfl
        exact (digitChar_spec (n % 10) (Nat.mod_lt n (by norm_num))).1

theorem natDumpF_ne_nil (f n : ℕ) (h0 : 0 < n) (hf : n ≤ f) : natDumpF f n ≠ [] := by
  cases f with
  | zero => omega
  | succ f =>
    rw [natDumpF, if_neg (by omega : ¬ n = 0)]
    simp

theorem natDump_all_dig (n : ℕ) : ∀ c ∈ natDump n, isDig c = true := by
  intro c hc
  rw [natDump] at hc
  by_cases h0 : n = 0
  · rw [if_pos h0] at hc
    rcases List.mem_singleton.mp hc with rfl
    decide
  · rw [if_neg h0] at hc
    exact natDumpF_all_dig n n c hc

theorem natDump_ne_nil (n : ℕ) : natDump n ≠ [] := by
  rw [natDump]
  by_cases h0 : n = 0
  · rw [if_pos h0]
    simp
  · rw [if_neg h0]
    exact natDumpF_ne_nil n n (by omega) le_rfl

theorem readNat_natDump (n : ℕ) (tail : List Char) (h : headDig tail = false) :
    readNat 0 (natDump n ++ tail) = (n, tail) := by
  rw [natDump]
  by_cases h0 : n = 0
  · rw [if_pos h0, h0]
    show readNat 0 ('0' :: tail) = (0, tail)
    rw [readNat, if_pos (by decide)]
    show readNat 0 tail = (0, tail)
    exact readNat_stop 0 tail h
  · rw [if_neg h0, readNat_natDumpF n n le_rfl 0 tail, zero_mul, zero_add]
    exact readNat_stop n tail h

theorem parseInt_cons_not_neg (c : Char) (r : List Char) (h : c ≠ '-') :
    parseInt (c :: r) =
      if headDig (c :: r) then
        some (((readNat 0 (c :: r)).1 : ℤ), (readNat 0 (c :: r)).2)
      else none := by
  rw [parseInt.eq_def]
  split
  · rename_i r2 heq
    injection heq with h1 h2
    exact absurd h1 h
  · rfl

theorem isDig_ne (c : Char) (h : isDig c = true) :
    c ≠ '"' ∧ c ≠ '[' ∧ c ≠ ' ' ∧ c ≠ ']' ∧ c ≠ '-' := by
  have hb : 48 ≤ c.toNat ∧ c.toNat ≤ 57 := by
    have h' := h
    rw [isDig, Bool.and_eq_true] at h'
    exact ⟨of_decide_eq_true h'.1, of_decide_eq_true h'.2⟩
  refine ⟨?_, ?_, ?_, ?_, ?_⟩ <;> intro heq <;> subst heq <;> revert hb <;> decide

theorem parseInt_intDump (n : ℤ) (tail : List Char) (h : headDig tail = false) :
    parseInt (intDump n ++ tail) = some (n, tail) := by
  rw [intDump]
  by_cases hneg : n < 0
  · rw [if_pos hneg]
    show parseInt ('-' :: (natDump (-n).toNat ++ tail)) = some (n, tail)
    have hhd : headDig (natDump (-n).toNat ++ tail) = true := by
      rcases hnd : natDump (-n).toNat with _ | ⟨c, r⟩
      · exact absurd hnd (natDump_ne_nil _)
      · show isDig c = true
        exact natDump_all_dig _ c (hnd ▸ List.mem_cons_self _ _)
    rw [show parseInt ('-' :: (natDump (-n).toNat ++ tail))
        = (if headDig (natDump (-n).toNat ++ tail) then
            some (-(((readNat 0 (natDump (-n).toNat ++ tail)).1 : ℕ) : ℤ),
              (readNat 0 (natDump (-n).toNat ++ tail)).2)
          else none) from rfl]
    rw [if_pos hhd, readNat_natDump _ tail h]
    have : (((-n).toNat : ℤ)) = -n := Int.toNat_of_nonneg (by omega)
    simp only []
    rw [show (((-n).toNat : ℕ) : ℤ) = -n from this]
    rw [neg_neg]
  · rw [if_neg hneg]
    push_neg at hneg
    have key := readNat_natDump n.toNat tail h
    rcases hnd : natDump n.toNat with _ | ⟨c, r⟩
    · exact absurd hnd (natDump_ne_nil _)
    · have hdig : isDig c = true := natDump_all_dig _ c (hnd ▸ List.mem_cons_self _ _)
      have hcn : c ≠ '-' := (isDig_ne c hdig).2.2.2.2
      rw [hnd, List.cons_append] at key
      rw [List.cons_append, parseInt_cons_not_neg c (r ++ tail) hcn,
        if_pos (show headDig (c :: (r ++ tail)) = true from hdig), key]
      rw [Int.toNat_of_nonneg hneg]

theorem parseStr_cons_ne (c : Char) (X : List Char) (h1 : c ≠ '"') (h2 : c ≠ '\\') :
    parseStr (c :: X) = (parseStr X).map (fun sr => (c :: sr.1, sr.2)) := by
  rw [parseStr.eq_def]
  split
  · rename_i heq
    cases heq
  · rename_i r heq
    injection heq with ha hb
    exact absurd ha h1
  · rename_i c2 r heq
    injection heq with ha hb
    exact absurd ha h2
  · rename_i c2 r hno heq
    injection heq with ha hb
    subst ha
    subst hb
    rfl

theorem parseStr_escStr (s : List Char) (rest : List Char) :
    parseStr (escStr s ++ '"' :: rest) = some (s, rest) := by
  induction s with
  | nil => rfl
  | cons c r ih =>
    rw [escStr, escChar]
    by_cases h1 : c = '"'
    · rw [if_pos h1, h1]
      show (parseStr (escStr r ++ '"' :: rest)).map
        (fun sr => ('"' :: sr.1, sr.2)) = some ('"' :: r, rest)
      rw [ih]
      rfl
    · rw [if_neg h1]
      by_cases h2 : c = '\\'
      · rw [if_pos h2, h2]
        show (parseStr (escStr r ++ '"' :: rest)).map
          (fun sr => ('\\' :: sr.1, sr.2)) = some ('\\' :: r, rest)
        rw [ih]
        rfl
      · rw [if_neg h2, List.singleton_append, List.cons_append, parseStr_cons_ne c _ h1 h2, ih]
        rfl

theorem skipSp_cons_ne (c : Char) (r : List Char) (h : c ≠ ' ') :
    skipSp (c :: r) = c :: r := by
  rw [skipSp.eq_def]
  split
  · rename_i r2 heq
    injection heq with ha hb
    exact absurd ha h
  · rfl

theorem intDump_head (n : ℤ) :
    ∃ c r, intDump n = c :: r ∧ (c = '-' ∨ isDig c = true) := by
  rw [intDump]
  by_cases hneg : n < 0
  · rw [if_pos hneg]
    exact ⟨'-', _, rfl, Or.inl rfl⟩
  · rw [if_neg hneg]
    rcases hnd : natDump n.toNat with _ | ⟨c, r⟩
    · exact absurd hnd (natDump_ne_nil _)
    · exact ⟨c, r, rfl, Or.inr (natDump_all_dig _ c (hnd ▸ List.mem_cons_self _ _))⟩

theorem jdump_head (v : JV) :
    ∃ c r, jdump v = c :: r ∧ c ≠ ' ' ∧ c ≠ ']' := by
  cases v with
  | jstr s => exact ⟨'"', _, rfl, by decide, by decide⟩
  | jarr l => exact ⟨'[', _, rfl, by decide, by decide⟩
  | jint n =>
    obtain ⟨c, r, heq, hc⟩ := intDump_head n
    refine ⟨c, r, heq, ?_, ?_⟩
    · rcases hc with h | h
      · subst h
        decide
      · exact (isDig_ne c h).2.2.1
    · rcases hc with h | h
      · subst h
        decide
      · exact (isDig_ne c h).2.2.2.1

theorem jdump_head_not_digit_sep (v : JV) (rest : List Char) :
    skipSp (jdump v ++ rest) = jdump v ++ rest := by
  obtain ⟨c, r, heq, hsp, _⟩ := jdump_head v
  rw [heq, List.cons_append, skipSp_cons_ne c _ hsp]


theorem parseV_quote (f : ℕ) (X : List Char) :
    parseV (f + 1) ('"' :: X) = (parseStr X).map (fun sr => (JV.jstr sr.1, sr.2)) := rfl

theorem parseV_bracket (f : ℕ) (X : List Char) :
    parseV (f + 1) ('[' :: X) =
      if (skipSp X).head? = some ']' then some (.jarr .jnil, (skipSp X).tail)
      else (parseItems f (skipSp X)).map (fun lr => (JV.jarr lr.1, lr.2)) := rfl

theorem parseV_other (f : ℕ) (c : Char) (r : List Char)
    (h1 : c ≠ '"') (h2 : c ≠ '[') :
    parseV (f + 1) (c :: r) = (parseInt (c :: r)).map (fun nr => (JV.jint nr.1, nr.2)) := by
  rw [parseV.eq_def]
  split
  · omega
  · split
    · rename_i r2 ha
      injection ha with hb1 hb2
      exact absurd hb1 h1
    · rename_i r2 ha
      injection ha with hb1 hb2
      exact absurd hb1 h2
    · rfl

theorem parseItems_succ (f : ℕ) (cs : List Char) :
    parseItems (f + 1) cs =
      match parseV f cs with
      | none => none
      | some (v, r) =>
        if (skipSp r).head? = some ',' then
          (parseItems f (skipSp (skipSp r).tail)).map (fun lr => (JL.jcons v lr.1, lr.2))
        else if (skipSp r).head? = some ']' then some (.jcons v .jnil, (skipSp r).tail)
        else none := rfl

theorem parseItems_some (f : ℕ) (cs : List Char) (v : JV) (r : List Char)
    (h : parseV f cs = some (v, r)) :
    parseItems (f + 1) cs =
      if (skipSp r).head? = some ',' then
        (parseItems f (skipSp (skipSp r).tail)).map (fun lr => (JL.jcons v lr.1, lr.2))
      else if (skipSp r).head? = some ']' then some (.jcons v .jnil, (skipSp r).tail)
      else none := by
  rw [parseItems_succ, h]

theorem sizeV_pos (v : JV) : 1 ≤ sizeV v := by
  cases v <;> simp [sizeV]

theorem jdumpL_cons_decomp (w : JV) (l : JL) :
    ∃ T, jdumpL (.jcons w l) = jdump w ++ T := by
  cases l with
  | jnil => exact ⟨[], by rw [jdumpL, List.append_nil]⟩
  | jcons x l2 => exact ⟨',' :: ' ' :: jdumpL (.jcons x l2), rfl⟩

theorem skipSp_jdumpL (w : JV) (l : JL) (rest : List Char) :
    skipSp (jdumpL (.jcons w l) ++ rest) = jdumpL (.jcons w l) ++ rest := by
  obtain ⟨T, hT⟩ := jdumpL_cons_decomp w l
  rw [hT, List.append_assoc, jdump_head_not_digit_sep]

theorem jdumpL_head_ne (w : JV) (l : JL) (rest : List Char) :
    (jdumpL (.jcons w l) ++ rest).head? ≠ some ']' := by
  obtain ⟨T, hT⟩ := jdumpL_cons_decomp w l
  obtain ⟨c, r, heq, _, hne⟩ := jdump_head w
  simp only [hT, heq, List.cons_append, List.head?_cons]
  intro hc
  injection hc with hc1
  exact hne hc1

mutual
theorem parseV_dump : ∀ (v : JV), wfV v = true → ∀ (f : ℕ) (rest : List Char),
    sizeV v < f → (∀ z : ℤ, v = .jint z → headDig rest = false) →
    parseV f (jdump v ++ rest) = some (v, rest)
  | v, hwf, f, rest, hfuel, hrest => by
    cases f with
    | zero => omega
    | succ f2 =>
      cases v with
      | jstr s =>
        simp only [jdump, List.cons_append, List.append_assoc, List.singleton_append, List.nil_append]
        rw [parseV_quote, parseStr_escStr]
        rfl
      | jint n =>
        obtain ⟨c, r, heq, hc⟩ := intDump_head n
        have h1 : c ≠ '"' := by
          rcases hc with h | h
          · subst h; decide
          · exact (isDig_ne c h).1
        have h2 : c ≠ '[' := by
          rcases hc with h | h
          · subst h; decide
          · exact (isDig_ne c h).2.1
        show parseV (f2 + 1) (intDump n ++ rest) = some (.jint n, rest)
        rw [heq, List.cons_append, parseV_other f2 c _ h1 h2, ← List.cons_append, ← heq,
          parseInt_intDump n rest (hrest n rfl)]
        rfl
      | jarr l =>
        simp only [jdump, List.cons_append, List.append_assoc, List.singleton_append, List.nil_append]
        rw [parseV_bracket]
        cases l with
        | jnil =>
          show (if (skipSp (']' :: rest)).head? = some ']' then
              some (JV.jarr JL.jnil, (skipSp (']' :: rest)).tail)
            else (parseItems f2 (skipSp (']' :: rest))).map
              (fun lr => (JV.jarr lr.1, lr.2))) = some (.jarr .jnil, rest)
          rw [skipSp_cons_ne _ _ (by decide), List.head?_cons, if_pos rfl]
          rfl
        | jcons w l2 =>
          rw [skipSp_jdumpL, if_neg (jdumpL_head_ne w l2 (']' :: rest))]
          have hwf2 : wfL (.jcons w l2) = true := hwf
          have hfu : sizeL (.jcons w l2) + 1 < f2 + 1 := hfuel
          have hr := parseItems_dump (.jcons w l2) hwf2 f2 rest (by omega)
            (by intro hco; cases hco)
          rw [hr]
          rfl
theorem parseItems_dump : ∀ (l : JL), wfL l = true → ∀ (f : ℕ) (rest : List Char),
    sizeL l < f → l ≠ .jnil →
    parseItems f (jdumpL l ++ ']' :: rest) = some (l, rest)
  | .jnil, _, _, _, _, hne => absurd rfl hne
  | .jcons v l2, hwf, f, rest, hfuel, _ => by
    cases f with
    | zero => omega
    | succ f2 =>
      have hwf2 : (wfV v && wfL l2) = true := hwf
      rw [Bool.and_eq_true] at hwf2
      have hfu : sizeV v + sizeL l2 + 1 < f2 + 1 := hfuel
      cases l2 with
      | jnil =>
        have hfu2 : sizeV v + 0 + 1 < f2 + 1 := hfu
        have hv := parseV_dump v hwf2.1 f2 (']' :: rest) (by omega)
          (fun z hz => rfl)
        show parseItems (f2 + 1) (jdump v ++ ']' :: rest) = some (.jcons v .jnil, rest)
        rw [parseItems_some f2 _ v (']' :: rest) hv]
        rw [skipSp_cons_ne _ _ (by decide), List.head?_cons]
        rw [if_neg (by decide), if_pos rfl]
        rfl
      | jcons w l3 =>
        have hfu3 : sizeV v + sizeL (.jcons w l3) + 1 < f2 + 1 := hfu
        show parseItems (f2 + 1)
            ((jdump v ++ ',' :: ' ' :: jdumpL (.jcons w l3)) ++ ']' :: rest)
            = some (.jcons v (.jcons w l3), rest)
        rw [List.append_assoc, List.cons_append, List.cons_append]
        have hv := parseV_dump v hwf2.1 f2
          (',' :: ' ' :: (jdumpL (.jcons w l3) ++ ']' :: rest)) (by omega)
          (fun z hz => rfl)
        rw [parseItems_some f2 _ v _ hv]
        rw [skipSp_cons_ne _ _ (by decide), List.head?_cons, if_pos rfl]
        rw [List.tail_cons]
        rw [show skipSp (' ' :: (jdumpL (.jcons w l3) ++ ']' :: rest))
            = skipSp (jdumpL (.jcons w l3) ++ ']' :: rest) from rfl]
        rw [skipSp_jdumpL]
        have hrec := parseItems_dump (.jcons w l3) hwf2.2 f2 rest (by omega)
          (by intro hco; cases hco)
        rw [hrec]
        rfl
end

mutual
theorem sizeV_le_len : ∀ (v : JV), sizeV v ≤ (jdump v).length
  | .jstr s => by
    show 1 ≤ ('"' :: escStr s ++ ['"']).length
    simp
  | .jint n => by
    obtain ⟨c, r, heq, _⟩ := intDump_head n
    show 1 ≤ (intDump n).length
    rw [heq]
    simp
  | .jarr l => by
    have h := sizeL_le_len1 l
    show sizeL l + 1 ≤ ('[' :: jdumpL l ++ [']']).length
    simp only [List.cons_append, List.length_cons, List.length_append,
      List.length_singleton]
    omega
theorem sizeL_le_len1 : ∀ (l : JL), sizeL l ≤ (jdumpL l).length + 1
  | .jnil => by
    show 0 ≤ ([] : List Char).length + 1
    simp
  | .jcons v .jnil => by
    have h := sizeV_le_len v
    show sizeV v + 0 + 1 ≤ (jdump v).length + 1
    omega
  | .jcons v (.jcons w l3) => by
    have h1 := sizeV_le_len v
    have h2 := sizeL_le_len1 (.jcons w l3)
    show sizeV v + sizeL (.jcons w l3) + 1
        ≤ (jdump v ++ ',' :: ' ' :: jdumpL (.jcons w l3)).length + 1
    simp only [List.length_append, List.length_cons]
    omega
end

theorem jparse_jdump (v : JV) (hwf : wfV v = true) : jparse (jdump v) = some v := by
  have h := parseV_dump v hwf ((jdump v).length + 1) []
    (by have := sizeV_le_len v; omega) (fun z hz => rfl)
  rw [List.append_nil] at h
  rw [jparse, h]

/-! ### The bucket key codec -/

/-- `'/'.join` (line 504). -/
def joinSlash : List (List Char) → List Char
  | [] => []
  | [p] => p
  | p :: q :: r => p ++ '/' :: joinSlash (q :: r)

/-- The version-1 key marker `'bucket:'` (lines 467, 501). -/
def bucketPfx : List Char := ['b', 'u', 'c', 'k', 'e', 't', ':']

/-- `str.startswith` (line 467). -/
def swL : List Char → List Char → Bool
  | [], _ => true
  | _ :: _, [] => false
  | a :: as, b :: bs => a == b && swL as bs

/-- `Limit.key` (lines 490-504): joins `'bucket:<uuid>'` with one
`name=<encoded value>` piece per parameter on `/`.  The parameter
dictionary is modelled as the association list giving the items in the
`sorted(params)` iteration order. -/
def keyL (uuid : List Char) (params : List (List Char × JV)) : List Char :=
  joinSlash ((bucketPfx ++ uuid) :: params.map (fun p => p.1 ++ '=' :: encVal p.2))

/-- The distinguishable failures of `Limit.decode` (each a `ValueError`
in the source: lines 468, 474, 485, and a `json.loads` failure inside
`_decode`). -/
inductive DErr
  | notBucket
  | uuidMismatch
  | badPart
  | badValue
deriving DecidableEq

/-- One turn of the decoding loop (lines 479-487): split the part at
the first `=` (`part.partition('=')`), fail if there is none, then
`_decode` the value. -/
def decodePart (part : List Char) : Except DErr (List Char × JV) :=
  match partEq part with
  | none => .error .badPart
  | some nv =>
    match decVal nv.2 with
    | none => .error .badValue
    | some v => .ok (nv.1, v)

/-- The decoding loop over `parts[1:]` (lines 478-487), building the
parameter mapping in iteration order. -/
def decodeParts : List (List Char) → Except DErr (List (List Char × JV))
  | [] => .ok []
  | part :: rest =>
    match decodePart part with
    | .error e => .error e
    | .ok nv => (decodeParts rest).map (fun ps => nv :: ps)

/-- `Limit.decode` (lines 455-488): check the `'bucket:'` marker, split
`key[7:]` on `/`, check the uuid, decode the remaining parts.
(`split` never returns an empty list, so the `[]` arm is unreachable.) -/
def limitDecode (uuid ky : List Char) : Except DErr (List (List Char × JV)) :=
  if swL bucketPfx ky then
    match splitOnC '/' (ky.drop 7) with
    | [] => .error .uuidMismatch
    | u :: parts => if u = uuid then decodeParts parts else .error .uuidMismatch
  else .error .notBucket

theorem swL_append (p s : List Char) : swL p (p ++ s) = true := by
  induction p with
  | nil => rfl
  | cons c r ih => simp [swL, List.cons_append, ih]

theorem joinSlash_head (a b : List Char) (r : List (List Char)) :
    joinSlash ((a ++ b) :: r) = a ++ joinSlash (b :: r) := by
  cases r with
  | nil => rfl
  | cons s r2 => simp only [joinSlash, List.append_assoc]

theorem splitOnC_join (segs : List (List Char)) (u : List Char) (hu : '/' ∉ u)
    (hs : ∀ s ∈ segs, '/' ∉ s) :
    splitOnC '/' (joinSlash (u :: segs)) = u :: segs := by
  induction segs generalizing u with
  | nil => exact splitOnC_no_sep '/' u hu
  | cons s r ih =>
    show splitOnC '/' (u ++ '/' :: joinSlash (s :: r)) = u :: s :: r
    rw [splitOnC_append '/' u _ hu,
      ih s (hs s (List.mem_cons_self s r)) (fun t ht => hs t (List.mem_cons_of_mem s ht))]

theorem decVal_encVal (v : JV) (h : wfV v = true) : decVal (encVal v) = some v := by
  rw [decVal, encVal, pctUnesc_pctEsc, jparse_jdump v h]

theorem decodePart_good (name : List Char) (v : JV) (h1 : '=' ∉ name)
    (h2 : wfV v = true) :
    decodePart (name ++ '=' :: encVal v) = .ok (name, v) := by
  have hp := partEq_append name (encVal v) h1
  have hd := decVal_encVal v h2
  simp only [decodePart, hp, hd]

theorem decodeParts_good (params : List (List Char × JV))
    (hp : ∀ p ∈ params, '=' ∉ p.1 ∧ wfV p.2 = true) :
    decodeParts (params.map (fun p => p.1 ++ '=' :: encVal p.2)) = .ok params := by
  induction params with
  | nil => rfl
  | cons p r ih =>
    have h1 := hp p (List.mem_cons_self p r)
    have hd := decodePart_good p.1 p.2 h1.1 h1.2
    have hr := ih (fun q hq => hp q (List.mem_cons_of_mem p hq))
    simp only [List.map_cons, decodeParts, hd, hr]
    rfl

theorem limitDecode_keyL (uuid : List Char) (params : List (List Char × JV))
    (hu : '/' ∉ uuid)
    (hp : ∀ p ∈ params, '/' ∉ p.1 ∧ '=' ∉ p.1 ∧ wfV p.2 = true) :
    limitDecode uuid (keyL uuid params) = .ok params := by
  have hsegs : ∀ s ∈ params.map (fun p => p.1 ++ '=' :: encVal p.2), '/' ∉ s := by
    intro s hsm
    obtain ⟨p, hpm, hpe⟩ := List.mem_map.mp hsm
    subst hpe
    intro hmem
    rcases List.mem_append.mp hmem with h | h
    · exact (hp p hpm).1 h
    rcases List.mem_cons.mp h with h | h
    · exact absurd h (by decide)
    · exact pctEsc_no_slash (jdump p.2) h
  have hkey : keyL uuid params =
      bucketPfx ++ joinSlash (uuid :: params.map (fun p => p.1 ++ '=' :: encVal p.2)) :=
    joinSlash_head bucketPfx uuid _
  have h1 : swL bucketPfx (bucketPfx ++
      joinSlash (uuid :: params.map (fun p => p.1 ++ '=' :: encVal p.2))) = true :=
    swL_append _ _
  have h2 : (bucketPfx ++
      joinSlash (uuid :: params.map (fun p => p.1 ++ '=' :: encVal p.2))).drop 7 =
      joinSlash (uuid :: params.map (fun p => p.1 ++ '=' :: encVal p.2)) :=
    List.drop_left bucketPfx _
  have h3 := splitOnC_join (params.map (fun p => p.1 ++ '=' :: encVal p.2)) uuid hu hsegs
  have h4 := decodeParts_good params (fun p hpm => ⟨(hp p hpm).2.1, (hp p hpm).2.2⟩)
  rw [hkey, limitDecode]
  simp only [h1, if_true, h2, h3, if_pos rfl]
  exact h4

/-- Modelled from the spec: the version-2 key marker `'bucket_v2:'`
(spec 4.3; the versioned `BucketKey` codec is exercised by the
repository's unit tests but its implementation is not under `src/`). -/
def bucketPfx2 : List Char := ['b', 'u', 'c', 'k', 'e', 't', '_', 'v', '2', ':']

/-- Modelled from the spec: `BucketKey.encode(uuid, params, version)`
(spec 4.3) — `"<prefix(version)>:<uuid>" + "/name=value"*` with values
serialized by the structured-value encoding and percent-escaped;
version 1 uses `bucket`, version 2 uses `bucket_v2`, any other version
is unsupported. -/
def bkEncode (uuid : List Char) (params : List (List Char × JV)) (v : ℕ) :
    Option (List Char) :=
  if v = 1 then
    some (joinSlash ((bucketPfx ++ uuid) :: params.map (fun p => p.1 ++ '=' :: encVal p.2)))
  else if v = 2 then
    some (joinSlash ((bucketPfx2 ++ uuid) :: params.map (fun p => p.1 ++ '=' :: encVal p.2)))
  else none

/-- Modelled from the spec: `BucketKey.decode(string)` (spec 4.3) —
match a known version marker (an unknown marker must fail, not
silently default), split the remainder on `/`, take the first segment
as the uuid and decode each later segment as a `name=value` pair. -/
def bkDecode (ky : List Char) : Except DErr (ℕ × List Char × List (List Char × JV)) :=
  if swL bucketPfx2 ky then
    match splitOnC '/' (ky.drop 10) with
    | [] => .error .uuidMismatch
    | u :: parts => (decodeParts parts).map (fun ps => (2, u, ps))
  else if swL bucketPfx ky then
    match splitOnC '/' (ky.drop 7) with
    | [] => .error .uuidMismatch
    | u :: parts => (decodeParts parts).map (fun ps => (1, u, ps))
  else .error .notBucket

theorem swL_pfx2_of_pfx1 (x : List Char) :
    swL bucketPfx2 (bucketPfx ++ x) = false := rfl

theorem bkDecode_v1 (uuid : List Char) (params : List (List Char × JV))
    (hu : '/' ∉ uuid)
    (hp : ∀ p ∈ params, '/' ∉ p.1 ∧ '=' ∉ p.1 ∧ wfV p.2 = true) :
    bkDecode (joinSlash ((bucketPfx ++ uuid) ::
      params.map (fun p => p.1 ++ '=' :: encVal p.2))) = .ok (1, uuid, params) := by
  have hsegs : ∀ s ∈ params.map (fun p => p.1 ++ '=' :: encVal p.2), '/' ∉ s := by
    intro s hsm
    obtain ⟨p, hpm, hpe⟩ := List.mem_map.mp hsm
    subst hpe
    intro hmem
    rcases List.mem_append.mp hmem with h | h
    · exact (hp p hpm).1 h
    rcases List.mem_cons.mp h with h | h
    · exact absurd h (by decide)
    · exact pctEsc_no_slash (jdump p.2) h
  have hkey := joinSlash_head bucketPfx uuid
    (params.map (fun p => p.1 ++ '=' :: encVal p.2))
  rw [hkey, bkDecode]
  have h0 : swL bucketPfx2 (bucketPfx ++
      joinSlash (uuid :: params.map (fun p => p.1 ++ '=' :: encVal p.2))) = false :=
    swL_pfx2_of_pfx1 _
  have h1 : swL bucketPfx (bucketPfx ++
      joinSlash (uuid :: params.map (fun p => p.1 ++ '=' :: encVal p.2))) = true :=
    swL_append _ _
  have h2 : (bucketPfx ++
      joinSlash (uuid :: params.map (fun p => p.1 ++ '=' :: encVal p.2))).drop 7 =
      joinSlash (uuid :: params.map (fun p => p.1 ++ '=' :: encVal p.2)) :=
    List.drop_left bucketPfx _
  have h3 := splitOnC_join (params.map (fun p => p.1 ++ '=' :: encVal p.2)) uuid hu hsegs
  have h4 := decodeParts_good params (fun p hpm => ⟨(hp p hpm).2.1, (hp p hpm).2.2⟩)
  simp only [h0, Bool.false_eq_true, if_false, h1, if_true, h2, h3, h4]
  rfl

theorem bkDecode_v2 (uuid : List Char) (params : List (List Char × JV))
    (hu : '/' ∉ uuid)
    (hp : ∀ p ∈ params, '/' ∉ p.1 ∧ '=' ∉ p.1 ∧ wfV p.2 = true) :
    bkDecode (joinSlash ((bucketPfx2 ++ uuid) ::
      params.map (fun p => p.1 ++ '=' :: encVal p.2))) = .ok (2, uuid, params) := by
  have hsegs : ∀ s ∈ params.map (fun p => p.1 ++ '=' :: encVal p.2), '/' ∉ s := by
    intro s hsm
    obtain ⟨p, hpm, hpe⟩ := List.mem_map.mp hsm
    subst hpe
    intro hmem
    rcases List.mem_append.mp hmem with h | h
    · exact (hp p hpm).1 h
    rcases List.mem_cons.mp h with h | h
    · exact absurd h (by decide)
    · exact pctEsc_no_slash (jdump p.2) h
  have hkey := joinSlash_head bucketPfx2 uuid
    (params.map (fun p => p.1 ++ '=' :: encVal p.2))
  rw [hkey, bkDecode]
  have h0 : swL bucketPfx2 (bucketPfx2 ++
      joinSlash (uuid :: params.map (fun p => p.1 ++ '=' :: encVal p.2))) = true :=
    swL_append _ _
  have h2 : (bucketPfx2 ++
      joinSlash (uuid :: params.map (fun p => p.1 ++ '=' :: encVal p.2))).drop 10 =
      joinSlash (uuid :: params.map (fun p => p.1 ++ '=' :: encVal p.2)) :=
    List.drop_left bucketPfx2 _
  have h3 := splitOnC_join (params.map (fun p => p.1 ++ '=' :: encVal p.2)) uuid hu hsegs
  have h4 := decodeParts_good params (fun p hpm => ⟨(hp p hpm).2.1, (hp p hpm).2.2⟩)
  simp only [h0, if_true, h2, h3, h4]
  rfl

/-- **C3.** Decoding an encoded bucket key recovers exactly the original
parameters, with the key built in ascending parameter-name order (the
association list gives the `sorted(params)` iteration order), each value
serialized by the structured-value encoding and percent-escaped for `/`
and `%` only, under prefix `bucket` for version 1 and `bucket_v2` for
version 2 (versions other than 1 and 2 are unsupported); the source's
own `Limit.decode`/`Limit.key` pair (version 1) round-trips likewise. -/
theorem C3_key_roundtrip (uuid : List Char) (params : List (List Char × JV))
    (hu : '/' ∉ uuid)
    (hp : ∀ p ∈ params, '/' ∉ p.1 ∧ '=' ∉ p.1 ∧ wfV p.2 = true) :
    limitDecode uuid (keyL uuid params) = .ok params ∧
    (∃ k, bkEncode uuid params 1 = some k ∧ bkDecode k = .ok (1, uuid, params)) ∧
    (∃ k, bkEncode uuid params 2 = some k ∧ bkDecode k = .ok (2, uuid, params)) ∧
    ∀ v, v ≠ 1 → v ≠ 2 → bkEncode uuid params v = none := by
  refine ⟨limitDecode_keyL uuid params hu hp,
    ⟨_, rfl, bkDecode_v1 uuid params hu hp⟩,
    ⟨_, rfl, bkDecode_v2 uuid params hu hp⟩, ?_⟩
  intro v h1 h2
  rw [bkEncode, if_neg h1, if_neg h2]

def C3uuid : List Char := ("fake-uuid-1234").data

def C3ps : List (List Char × JV) :=
  [(("name").data, JV.jstr ("don\x27t \x22quote\x22 / 100%").data),
   (("num").data, JV.jint (-7)),
   (("vals").data, JV.jarr (.jcons (.jint 3)
     (.jcons (.jstr ("a/b=c").data) .jnil)))]

theorem C3_key_roundtrip_witness :
    ('/' ∉ C3uuid ∧ ∀ p ∈ C3ps, '/' ∉ p.1 ∧ '=' ∉ p.1 ∧ wfV p.2 = true) ∧
    (limitDecode C3uuid (keyL C3uuid C3ps) = .ok C3ps ∧
     (∃ k, bkEncode C3uuid C3ps 1 = some k ∧ bkDecode k = .ok (1, C3uuid, C3ps)) ∧
     (∃ k, bkEncode C3uuid C3ps 2 = some k ∧ bkDecode k = .ok (2, C3uuid, C3ps)) ∧
     ∀ v, v ≠ 1 → v ≠ 2 → bkEncode C3uuid C3ps v = none) :=
  ⟨⟨by decide, by decide⟩, C3_key_roundtrip C3uuid C3ps (by decide) (by decide)⟩

/-- **C9.** `Limit.decode` fails on a key without the known prefix, on a
uuid segment different from the decoding limit's uuid, and on any
`/`-separated segment with no `=`; each failure is an error of the
single decode call. -/
theorem C9_decode_errors :
    (∀ uuid ky, swL bucketPfx ky = false → limitDecode uuid ky = .error .notBucket) ∧
    (∀ uuid ky u parts, swL bucketPfx ky = true →
      splitOnC '/' (ky.drop 7) = u :: parts → u ≠ uuid →
      limitDecode uuid ky = .error .uuidMismatch) ∧
    (∀ parts part, part ∈ parts → '=' ∉ part → ∃ e, decodeParts parts = .error e) := by
  refine ⟨?_, ?_, ?_⟩
  · intro uuid ky h
    rw [limitDecode]
    simp only [h, Bool.false_eq_true, if_false]
  · intro uuid ky u parts h1 h2 h3
    rw [limitDecode]
    simp only [h1, if_true, h2, if_neg h3]
  · intro parts
    induction parts with
    | nil =>
      intro part h
      cases h
    | cons q r ih =>
      intro part hmem hne
      rcases List.mem_cons.mp hmem with h | h
      · subst h
        have hq : decodePart part = .error .badPart := by
          rw [decodePart, partEq_none part hne]
        exact ⟨.badPart, by simp only [decodeParts, hq]⟩
      · obtain ⟨e, he⟩ := ih part h hne
        cases hq : decodePart q with
        | error e2 => exact ⟨e2, by simp only [decodeParts, hq]⟩
        | ok nv =>
          refine ⟨e, ?_⟩
          simp only [decodeParts, hq, he]
          rfl

theorem C9_decode_errors_witness :
    (swL bucketPfx ("zzz:x").data = false ∧
     limitDecode ("u").data ("zzz:x").data = .error .notBucket) ∧
    (swL bucketPfx ("bucket:abc").data = true ∧
     splitOnC '/' (("bucket:abc").data.drop 7) = [("abc").data] ∧
     ("abc").data ≠ ("xyz").data ∧
     limitDecode ("xyz").data ("bucket:abc").data = .error .uuidMismatch) ∧
    (("noeq").data ∈ [("noeq").data] ∧ '=' ∉ ("noeq").data ∧
     ∃ e, decodeParts [("noeq").data] = .error e) :=
  ⟨⟨by decide, C9_decode_errors.1 (("u").data) (("zzz:x").data) (by decide)⟩,
   ⟨by decide, by decide, by decide,
    C9_decode_errors.2.1 (("xyz").data) (("bucket:abc").data) (("abc").data) []
      (by decide) (by decide) (by decide)⟩,
   ⟨by decide, by decide,
    C9_decode_errors.2.2 [("noeq").data] (("noeq").data) (by decide) (by decide)⟩⟩

/-! ### `Limit._filter` -/

/-- The outcome of the subtype `filter` hook (lines 543-546): either it
raises `DeferLimit`, or it returns a mapping of additional parameters
(`None` is normalized to `{}` by `or {}`). -/
inductive HookOut
  | defer
  | extras (l : List (List Char × JV))

/-- The request-side inputs of `_filter`: the optional `QUERY_STRING`
WSGI variable, the hook outcome, and the delay produced by the
`bucket.delay` call inside `db.safe_update` (lines 551-565). -/
structure FEnv where
  queryString : Option (List Char)
  hook : HookOut
  delayRes : Option ℚ

/-- The limit attributes `_filter` consults. -/
structure FLimit where
  queries : List (List Char)
  uses : List (List Char)
  contScan : Bool

/-- The set of provided query-argument names (lines 520-522):
`qstr.partition('=')[0]` of each `&`-chunk of the query string. -/
def availQ (qs : List Char) : List (List Char) :=
  (splitOnC '&' qs).map (fun q => q.takeWhile (fun c => c ≠ '='))

/-- The tail of `_filter` after the query checks (lines 529-574): run
the hook, defer means `(False, no bucket access)`; otherwise the bucket
is fetched and updated via `db.safe_update`, a produced delay is
appended to the environment's delay list, and the result is
`not self.continue_scan`.  Returns (result, bucket accessed, recorded
delays). -/
def filterCore (lim : FLimit) (env : FEnv) : Bool × Bool × List ℚ :=
  match env.hook with
  | .defer => (false, false, [])
  | .extras _ =>
    (!lim.contScan, true,
      match env.delayRes with
      | none => []
      | some d => [d])

/-- The query-argument precondition of `_filter` (lines 514-527): a
missing `QUERY_STRING` or a required query argument not among the
provided ones returns `False` before any bucket access. -/
def filterQ (lim : FLimit) (env : FEnv) : Option (List Char) → Bool × Bool × List ℚ
  | none => (false, false, [])
  | some qs =>
    if lim.queries.all (fun r => (availQ qs).contains r) then filterCore lim env
    else (false, false, [])

/-- `Limit._filter` (lines 506-574): the query checks run only when
`queries` is non-empty (`if self.queries`). -/
def filterF (lim : FLimit) (env : FEnv) : Bool × Bool × List ℚ :=
  if lim.queries.isEmpty then filterCore lim env
  else filterQ lim env env.queryString

/-- **C5.** `_filter` returns True (halt the scan) iff `continue_scan`
is false and the limit actually applied (the bucket was accessed),
independently of the produced delay; a defer signal, a missing query
string, or a missing required query argument each yield False with no
bucket access. -/
theorem C5_filter (lim : FLimit) (env : FEnv) :
    ((filterF lim env).1 = true ↔
      lim.contScan = false ∧ (filterF lim env).2.1 = true) ∧
    (∀ d, (filterF lim { env with delayRes := d }).1 = (filterF lim env).1) ∧
    (env.hook = .defer → filterF lim env = (false, false, [])) ∧
    (lim.queries.isEmpty = false → env.queryString = none →
      filterF lim env = (false, false, [])) ∧
    (∀ qs r, lim.queries.isEmpty = false → env.queryString = some qs →
      r ∈ lim.queries → r ∉ availQ qs →
      filterF lim env = (false, false, [])) := by
  have hcore : ∀ e2 : FEnv, ((filterCore lim e2).1 = true ↔
      lim.contScan = false ∧ (filterCore lim e2).2.1 = true) := by
    intro e2
    cases h : e2.hook with
    | defer => simp [filterCore, h]
    | extras l =>
      simp only [filterCore, h]
      cases hc : lim.contScan <;> simp
  refine ⟨?_, ?_, ?_, ?_, ?_⟩
  · rw [filterF]
    by_cases hq : lim.queries.isEmpty
    · rw [if_pos hq]
      exact hcore env
    · rw [if_neg hq]
      cases hqs : env.queryString with
      | none =>
        rw [filterQ]
        simp
      | some qs =>
        rw [filterQ]
        by_cases hall : lim.queries.all (fun r => (availQ qs).contains r)
        · rw [if_pos hall]
          exact hcore env
        · rw [if_neg hall]
          simp
  · intro d
    have hone : ∀ e2 e3 : FEnv, e2.hook = e3.hook →
        (filterCore lim e2).1 = (filterCore lim e3).1 := by
      intro e2 e3 he
      rw [filterCore, filterCore, he]
      cases e3.hook <;> rfl
    have hQ : ∀ (e2 e3 : FEnv) (o : Option (List Char)), e2.hook = e3.hook →
        (filterQ lim e2 o).1 = (filterQ lim e3 o).1 := by
      intro e2 e3 o he
      cases o with
      | none => rfl
      | some qs =>
        rw [filterQ, filterQ]
        by_cases hall : lim.queries.all (fun r => (availQ qs).contains r)
        · rw [if_pos hall, if_pos hall]
          exact hone e2 e3 he
        · rw [if_neg hall, if_neg hall]
    rw [filterF, filterF]
    by_cases hq : lim.queries.isEmpty
    · rw [if_pos hq, if_pos hq]
      exact hone _ _ rfl
    · rw [if_neg hq, if_neg hq]
      exact hQ { env with delayRes := d } env env.queryString rfl
  · intro hd
    rw [filterF]
    have hc : filterCore lim env = (false, false, []) := by
      rw [filterCore, hd]
    by_cases hq : lim.queries.isEmpty
    · rw [if_pos hq, hc]
    · rw [if_neg hq]
      cases hqs : env.queryString with
      | none => rfl
      | some qs =>
        rw [filterQ]
        by_cases hall : lim.queries.all (fun r => (availQ qs).contains r)
        · rw [if_pos hall, hc]
        · rw [if_neg hall]
  · intro hq hqs
    rw [filterF, if_neg (by rw [hq]; exact Bool.false_ne_true), hqs]
    rfl
  · intro qs r hq hqs hmem hnot
    rw [filterF, if_neg (by rw [hq]; exact Bool.false_ne_true), hqs, filterQ]
    rw [if_neg ?hneg]
    intro hall
    rw [List.all_eq_true] at hall
    have hcon := hall r hmem
    exact hnot (List.elem_iff.mp hcon)

theorem C5_filter_witness :
    (FLimit.queries ⟨[("foo").data], [], false⟩).isEmpty = false ∧
    filterF ⟨[("foo").data], [], false⟩ ⟨none, .extras [], some 5⟩ = (false, false, []) ∧
    (("foo").data ∈ [("foo").data] ∧ ("foo").data ∉ availQ (("bar=1&baz=2").data)) ∧
    filterF ⟨[("foo").data], [], false⟩
      ⟨some (("bar=1&baz=2").data), .extras [], none⟩ = (false, false, []) ∧
    filterF ⟨[], [], false⟩ ⟨none, .defer, some 3⟩ = (false, false, []) ∧
    ((filterF ⟨[], [], false⟩ ⟨none, .extras [], some 3⟩).1 = true ↔
      (false : Bool) = false ∧
      (filterF ⟨[], [], false⟩ ⟨none, .extras [], some 3⟩).2.1 = true) :=
  ⟨by decide,
   (C5_filter ⟨[("foo").data], [], false⟩ ⟨none, .extras [], some 5⟩).2.2.2.1
     (by decide) rfl,
   ⟨by decide, by decide⟩,
   (C5_filter ⟨[("foo").data], [], false⟩
       ⟨some (("bar=1&baz=2").data), .extras [], none⟩).2.2.2.2
     (("bar=1&baz=2").data) (("foo").data) (by decide) rfl (by decide) (by decide),
   (C5_filter ⟨[], [], false⟩ ⟨none, .defer, some 3⟩).2.2.1 rfl,
   (C5_filter ⟨[], [], false⟩ ⟨none, .extras [], some 3⟩).1⟩

/-! ### The `value` and `unit_value` setters -/

/-- The private numeric fields `_value` and `_unit` of a limit. -/
structure LState where
  lvalue : ℤ
  lunit : ℤ

/-- The `value` setter (lines 633-640): reject non-positive values
before assigning `_value`.  The pair returns the (possibly updated)
state and the raised error, if any. -/
def setValue (st : LState) (v : ℤ) : LState × Option (List Char) :=
  if v ≤ 0 then (st, some (("Limit value must be > 0").data))
  else ({ st with lvalue := v }, none)

/-- The `unit_value` setter (lines 667-677): reject non-positive values
before assigning `_unit = int(value)`. -/
def setUnitValue (st : LState) (v : ℤ) : LState × Option (List Char) :=
  if v ≤ 0 then (st, some (("Unit value must be > 0").data))
  else ({ st with lunit := v }, none)

/-- **C7.** Assigning a non-positive `value` or `unit_value` raises a
validation error and leaves both stored fields unchanged; a positive
assignment succeeds and changes only its own field. -/
theorem C7_setters (st : LState) (v : ℤ) :
    (v ≤ 0 →
      setValue st v = (st, some (("Limit value must be > 0").data)) ∧
      setUnitValue st v = (st, some (("Unit value must be > 0").data))) ∧
    (0 < v →
      setValue st v = ({ st with lvalue := v }, none) ∧
      setUnitValue st v = ({ st with lunit := v }, none)) := by
  constructor
  · intro h
    rw [setValue, setUnitValue, if_pos h, if_pos h]
    exact ⟨rfl, rfl⟩
  · intro h
    rw [setValue, setUnitValue, if_neg (by omega), if_neg (by omega)]
    exact ⟨rfl, rfl⟩

theorem C7_setters_witness :
    ((-3 : ℤ) ≤ 0 ∧
      setValue ⟨10, 60⟩ (-3) = (⟨10, 60⟩, some (("Limit value must be > 0").data)) ∧
      setUnitValue ⟨10, 60⟩ (-3) = (⟨10, 60⟩, some (("Unit value must be > 0").data))) ∧
    ((0 : ℤ) < 7 ∧
      setValue ⟨10, 60⟩ 7 = (⟨7, 60⟩, none) ∧
      setUnitValue ⟨10, 60⟩ 7 = (⟨10, 7⟩, none)) :=
  ⟨⟨by decide, (C7_setters ⟨10, 60⟩ (-3)).1 (by decide)⟩,
   ⟨by decide, (C7_setters ⟨10, 60⟩ 7).2 (by decide)⟩⟩

/-! ### `get_unit_value` -/

/-- ASCII lower-casing of one character, as in Python `str.lower` for
the alias lookup. -/
def lowerC (c : Char) : Char :=
  if 65 ≤ c.toNat ∧ c.toNat ≤ 90 then Char.ofNat (c.toNat + 32) else c

/-- `str.lower` (line 82). -/
def lowerS (s : List Char) : List Char := s.map lowerC

/-- Python `str.isdigit` for ASCII strings: non-empty and all digits
(line 78). -/
def isDigits (s : List Char) : Bool := !s.isEmpty && s.all isDig

/-- The `_units_map` string-alias entries (lines 50-63): every name in
`_units_list` maps to its number of seconds. -/
def unitAlias (s : List Char) : Option ℤ :=
  if s = ("second").data ∨ s = ("seconds").data ∨ s = ("secs").data ∨
      s = ("sec").data ∨ s = ("s").data then some 1
  else if s = ("minute").data ∨ s = ("minutes").data ∨ s = ("mins").data ∨
      s = ("min").data ∨ s = ("m").data then some 60
  else if s = ("hour").data ∨ s = ("hours").data ∨ s = ("hrs").data ∨
      s = ("hr").data ∨ s = ("h").data then some 3600
  else if s = ("day").data ∨ s = ("days").data ∨ s = ("d").data then some 86400
  else none

/-- The possible argument types of `get_unit_value`: an integer, a
string, or anything else. -/
inductive PyVal
  | pint (n : ℤ)
  | pstr (s : List Char)
  | pother
deriving DecidableEq

/-- The failures of `get_unit_value`: the explicit `TypeError`
(line 75) and the `KeyError` a failed `_units_map` lookup raises
(line 82). -/
inductive UErr
  | typeErr
  | keyErr
deriving DecidableEq

/-- `get_unit_value` (lines 66-82): integers are returned as they are,
non-strings fail, digit-strings become their integer value, and any
other string is looked up lower-cased in the alias map. -/
def getUnitValue (v : PyVal) : Except UErr ℤ :=
  match v with
  | .pint n => .ok n
  | .pother => .error .typeErr
  | .pstr s =>
    if isDigits s then .ok ((readNat 0 s).1 : ℤ)
    else
      match unitAlias (lowerS s) with
      | some n => .ok n
      | none => .error .keyErr

/-- **C8 counterexample.** The claimed range check does not exist:
`get_unit_value(-5)` returns `-5` and raises nothing, even though the
resolved seconds value is non-positive (the `<= 0` check lives in the
`unit_value` setter, not here). -/
theorem C8_counterexample :
    getUnitValue (.pint (-5)) = .ok (-5) ∧
    ∀ e, getUnitValue (.pint (-5)) ≠ .error e :=
  ⟨rfl, fun _ h => Except.noConfusion h⟩

/-- **C8 amended.** `get_unit_value` returns any integer input
unchanged (no range check), fails with a type error on non-integer
non-string input, resolves digit-strings to their integer value
without consulting the alias table, and otherwise looks the string up
lower-cased (hence case-insensitively) in the alias table, failing
with a lookup error when no alias matches. -/
theorem C8_amended :
    (∀ n : ℤ, getUnitValue (.pint n) = .ok n) ∧
    (getUnitValue .pother = .error .typeErr) ∧
    (∀ s, isDigits s = true → getUnitValue (.pstr s) = .ok ((readNat 0 s).1 : ℤ)) ∧
    (∀ s n, isDigits s = false → unitAlias (lowerS s) = some n →
      getUnitValue (.pstr s) = .ok n) ∧
    (∀ s, isDigits s = false → unitAlias (lowerS s) = none →
      getUnitValue (.pstr s) = .error .keyErr) := by
  refine ⟨fun n => rfl, rfl, ?_, ?_, ?_⟩
  · intro s h
    simp only [getUnitValue, h, if_true]
  · intro s n h1 h2
    simp only [getUnitValue, h1, Bool.false_eq_true, if_false, h2]
  · intro s h1 h2
    simp only [getUnitValue, h1, Bool.false_eq_true, if_false, h2]

theorem C8_amended_witness :
    (isDigits (("42").data) = true ∧
      getUnitValue (.pstr (("42").data)) = .ok 42) ∧
    (isDigits (("SeCoNdS").data) = false ∧
      unitAlias (lowerS (("SeCoNdS").data)) = some 1 ∧
      getUnitValue (.pstr (("SeCoNdS").data)) = .ok 1) ∧
    (isDigits (("fortnight").data) = false ∧
      unitAlias (lowerS (("fortnight").data)) = none ∧
      getUnitValue (.pstr (("fortnight").data)) = .error .keyErr) :=
  ⟨⟨by decide, C8_amended.2.2.1 (("42").data) (by decide)⟩,
   ⟨by decide, by decide,
    C8_amended.2.2.2.1 (("SeCoNdS").data) 1 (by decide) (by decide)⟩,
   ⟨by decide, by decide,
    C8_amended.2.2.2.2 (("fortnight").data) (by decide) (by decide)⟩⟩

/-! ### `Limit.__init__` -/

/-- ASCII upper-casing of one character, as in Python `str.upper` for
the HTTP verbs. -/
def upperC (c : Char) : Char :=
  if 97 ≤ c.toNat ∧ c.toNat ≤ 122 then Char.ofNat (c.toNat - 32) else c

/-- `str.upper` (the `verbs` xform, line 272). -/
def upperS (s : List Char) : List Char := s.map upperC

/-- `', '.join` (line 351). -/
def joinCommaSp : List (List Char) → List Char
  | [] => []
  | [s] => s
  | s :: t :: r => s ++ ',' :: ' ' :: joinCommaSp (t :: r)

/-- The keyword arguments of `Limit.__init__`, one optional slot per
declared attribute (lines 239-311).  The `unit` argument may be an
integer, a string, or anything else, since its property setter routes
it through `get_unit_value`. -/
structure LKw where
  uuid : Option (List Char)
  uri : Option (List Char)
  value : Option ℤ
  unit : Option PyVal
  verbs : Option (List (List Char))
  requirements : Option (List (List Char × List Char))
  queries : Option (List (List Char))
  uses : Option (List (List Char))
  contScan : Option Bool

/-- The attribute values stored by a successful `Limit.__init__`;
`unit` is the parsed `_unit` integer the `unit_value` setter stores
(line 676), not the raw argument. -/
structure LRec where
  uuid : List Char
  uri : List Char
  value : ℤ
  unit : ℤ
  verbs : List (List Char)
  requirements : List (List Char × List Char)
  queries : List (List Char)
  uses : List (List Char)
  contScan : Bool

/-- The errors `Limit.__init__` can raise: a `ValueError` from the
`value` or `unit_value` setter (lines 637, 674), the `TypeError` or
`KeyError` from `get_unit_value` inside the `unit` setter (lines 75,
82, 656), and the post-scan `TypeError` for missing attributes
(lines 350-351). -/
inductive IErr
  | valueErr (msg : List Char)
  | unitTypeErr
  | unitKeyErr
  | missing (msg : List Char)
deriving DecidableEq

/-- The validation `setattr(self, 'value', v)` triggers (lines 347,
633-640): a supplied non-positive `value` raises `ValueError`. -/
def checkValue (kw : LKw) : Option IErr :=
  match kw.value with
  | none => none
  | some uv =>
    if uv ≤ 0 then some (.valueErr (("Limit value must be > 0").data)) else none

/-- The validation `setattr(self, 'unit', u)` triggers (lines 347,
648-656, 667-677): the `unit` setter runs `get_unit_value` (which can
raise `TypeError` or `KeyError`) and assigns the result to
`unit_value`, whose setter rejects non-positive values and stores
`int(value)` in `_unit`; returns the stored integer when `unit` was
supplied. -/
def checkUnit (kw : LKw) : Except IErr (Option ℤ) :=
  match kw.unit with
  | none => .ok none
  | some pv =>
    match getUnitValue pv with
    | .error .typeErr => .error .unitTypeErr
    | .error .keyErr => .error .unitKeyErr
    | .ok n =>
      if n ≤ 0 then .error (.valueErr (("Unit value must be > 0").data))
      else .ok (some n)

/-- `Limit.__init__` (lines 315-352): each supplied attribute is stored
with `setattr` after its declared transform (only `verbs` has one:
upper-casing), so the `value` and `unit` property setters validate
their supplied arguments in the middle of the scan, before the
missing-attribute check; each absent attribute with a declared default
gets the default (`uuid` a freshly generated one, passed here as
`freshU`; `verbs`, `requirements`, `queries`, `use` fresh empty
containers; `continue_scan` True); the attributes with no default —
`uri`, `unit`, `value` — are accumulated into `missing` and reported
together, sorted, only after the whole scan completes.  The `attrs`
dictionary's iteration order is implementation-defined in Python 2;
this model checks `value` before `unit` (the missing-attribute report
always comes last, as in the source). -/
def limitInit (freshU : List Char) (kw : LKw) : Except IErr LRec :=
  match checkValue kw with
  | some e => .error e
  | none =>
    match checkUnit kw with
    | .error e => .error e
    | .ok ou =>
      match kw.uri, kw.value, ou with
      | some uri, some uv, some n =>
        .ok { uuid := kw.uuid.getD freshU
              uri := uri
              value := uv
              unit := n
              verbs := match kw.verbs with
                | some vs => vs.map upperS
                | none => []
              requirements := kw.requirements.getD []
              queries := kw.queries.getD []
              uses := kw.uses.getD []
              contScan := kw.contScan.getD true }
      | _, _, _ =>
        .error (.missing (("Missing required attributes: ").data ++ joinCommaSp (
          (if kw.unit = none then [("unit").data] else []) ++
          (if kw.uri = none then [("uri").data] else []) ++
          (if kw.value = none then [("value").data] else []))))

/-- **C6.** Supplied fields are stored transformed (verbs upper-cased,
`unit` parsed to its integer `_unit`), absent fields with defaults get
fresh default values; a supplied non-positive `value` raises the
`value` setter's `ValueError`, a supplied bad `unit` raises
`get_unit_value`'s `TypeError`/`KeyError` or the `unit_value` setter's
`ValueError`, each mid-scan and hence before any missing-attribute
report; and when every supplied field passes its setter, construction
with missing required fields fails reporting the complete sorted set
of missing names (`unit`, `uri`, `value` in sorted order), not just
the first. -/
theorem C6_init (freshU : List Char) (kw : LKw) :
    (∀ uri uv pv n, kw.uri = some uri → kw.value = some uv → 0 < uv →
      kw.unit = some pv → getUnitValue pv = .ok n → 0 < n →
      limitInit freshU kw = .ok
        { uuid := kw.uuid.getD freshU
          uri := uri
          value := uv
          unit := n
          verbs := (kw.verbs.getD []).map upperS
          requirements := kw.requirements.getD []
          queries := kw.queries.getD []
          uses := kw.uses.getD []
          contScan := kw.contScan.getD true }) ∧
    (∀ uv, kw.value = some uv → uv ≤ 0 →
      (kw.unit = none ∨ ∃ pv n, kw.unit = some pv ∧ getUnitValue pv = .ok n ∧ 0 < n) →
      limitInit freshU kw = .error (.valueErr (("Limit value must be > 0").data))) ∧
    (∀ pv, kw.unit = some pv →
      (kw.value = none ∨ ∃ uv, kw.value = some uv ∧ 0 < uv) →
      (getUnitValue pv = .error .typeErr → limitInit freshU kw = .error .unitTypeErr) ∧
      (getUnitValue pv = .error .keyErr → limitInit freshU kw = .error .unitKeyErr) ∧
      (∀ n, getUnitValue pv = .ok n → n ≤ 0 →
        limitInit freshU kw = .error (.valueErr (("Unit value must be > 0").data)))) ∧
    ((kw.value = none ∨ ∃ uv, kw.value = some uv ∧ 0 < uv) →
      (kw.unit = none ∨ ∃ pv n, kw.unit = some pv ∧ getUnitValue pv = .ok n ∧ 0 < n) →
      (kw.uri = none ∨ kw.unit = none ∨ kw.value = none) →
      limitInit freshU kw =
        .error (.missing (("Missing required attributes: ").data ++ joinCommaSp (
          (if kw.unit = none then [("unit").data] else []) ++
          (if kw.uri = none then [("uri").data] else []) ++
          (if kw.value = none then [("value").data] else []))))) := by
  refine ⟨?_, ?_, ?_, ?_⟩
  · intro uri uv pv n h1 h2 h3 h4 h5 h6
    have hcv : checkValue kw = none := by
      simp only [checkValue, h2]
      rw [if_neg (by omega)]
    have hcu : checkUnit kw = .ok (some n) := by
      simp only [checkUnit, h4, h5]
      rw [if_neg (by omega)]
    simp only [limitInit, hcv, hcu, h1, h2]
    cases kw.verbs <;> rfl
  · intro uv h1 h2 _
    have hcv : checkValue kw = some (.valueErr (("Limit value must be > 0").data)) := by
      simp only [checkValue, h1]
      rw [if_pos h2]
    simp only [limitInit, hcv]
  · intro pv h4 hval
    have hcv : checkValue kw = none := by
      rcases hval with h | ⟨uv, h, hpos⟩
      · simp only [checkValue, h]
      · simp only [checkValue, h]
        rw [if_neg (by omega)]
    refine ⟨?_, ?_, ?_⟩
    · intro he
      have hcu : checkUnit kw = .error .unitTypeErr := by
        simp only [checkUnit, h4, he]
      simp only [limitInit, hcv, hcu]
    · intro he
      have hcu : checkUnit kw = .error .unitKeyErr := by
        simp only [checkUnit, h4, he]
      simp only [limitInit, hcv, hcu]
    · intro n hok hle
      have hcu : checkUnit kw =
          .error (.valueErr (("Unit value must be > 0").data)) := by
        simp only [checkUnit, h4, hok]
        rw [if_pos hle]
      simp only [limitInit, hcv, hcu]
  · intro hvalOK hunitOK hmiss
    have hcv : checkValue kw = none := by
      rcases hvalOK with h | ⟨uv, h, hpos⟩
      · simp only [checkValue, h]
      · simp only [checkValue, h]
        rw [if_neg (by omega)]
    obtain ⟨ou, hcu, hou⟩ :
        ∃ ou, checkUnit kw = .ok ou ∧ (kw.unit = none → ou = none) := by
      rcases hunitOK with h | ⟨pv, n, h, hok, hpos⟩
      · exact ⟨none, by simp only [checkUnit, h], fun _ => rfl⟩
      · refine ⟨some n, ?_, fun hc => ?_⟩
        · simp only [checkUnit, h, hok]
          rw [if_neg (by omega)]
        · rw [h] at hc
          cases hc
    simp only [limitInit, hcv, hcu]
    rcases hu2 : kw.uri with _ | uri <;> rcases hv2 : kw.value with _ | uv <;>
      rcases ho2 : ou with _ | n <;> simp only [hu2, hv2, ho2]
    exfalso
    rcases hmiss with h | h | h
    · rw [h] at hu2
      cases hu2
    · rw [hou h] at ho2
      cases ho2
    · rw [h] at hv2
      cases hv2

theorem C6_init_witness :
    (limitInit (("gen").data)
        ⟨some (("u").data), some (("/a").data), some 5,
          some (.pstr (("hour").data)), some [("get").data],
          none, none, none, none⟩ =
      .ok ⟨("u").data, ("/a").data, 5, 3600, [("GET").data], [], [], [], true⟩) ∧
    (limitInit (("gen").data)
        ⟨none, some (("/a").data), some (-2), some (.pstr (("day").data)),
          none, none, none, none, none⟩ =
      .error (.valueErr (("Limit value must be > 0").data))) ∧
    (limitInit (("gen").data)
        ⟨none, some (("/a").data), some 5, some (.pstr (("fortnight").data)),
          none, none, none, none, none⟩ = .error .unitKeyErr) ∧
    (limitInit (("gen").data)
        ⟨none, some (("/a").data), some 5, some .pother,
          none, none, none, none, none⟩ = .error .unitTypeErr) ∧
    (limitInit (("gen").data)
        ⟨none, some (("/a").data), some 5, some (.pstr (("0").data)),
          none, none, none, none, none⟩ =
      .error (.valueErr (("Unit value must be > 0").data))) ∧
    (limitInit (("gen").data)
        ⟨none, none, none, none, none, none, none, none, none⟩ =
      .error (.missing (("Missing required attributes: unit, uri, value").data))) ∧
    (limitInit (("gen").data)
        ⟨none, none, some 5, some (.pstr (("day").data)),
          none, none, none, none, none⟩ =
      .error (.missing (("Missing required attributes: uri").data))) :=
  ⟨by
    rw [(C6_init (("gen").data)
        ⟨some (("u").data), some (("/a").data), some 5,
          some (.pstr (("hour").data)), some [("get").data],
          none, none, none, none⟩).1
      (("/a").data) 5 (.pstr (("hour").data)) 3600
      rfl rfl (by decide) rfl rfl (by decide)]
    exact rfl,
   (C6_init (("gen").data)
       ⟨none, some (("/a").data), some (-2), some (.pstr (("day").data)),
         none, none, none, none, none⟩).2.1
     (-2) rfl (by decide)
     (Or.inr ⟨.pstr (("day").data), 86400, rfl, rfl, by decide⟩),
   ((C6_init (("gen").data)
       ⟨none, some (("/a").data), some 5, some (.pstr (("fortnight").data)),
         none, none, none, none, none⟩).2.2.1
     (.pstr (("fortnight").data)) rfl
     (Or.inr ⟨5, rfl, by decide⟩)).2.1 rfl,
   ((C6_init (("gen").data)
       ⟨none, some (("/a").data), some 5, some .pother,
         none, none, none, none, none⟩).2.2.1
     .pother rfl (Or.inr ⟨5, rfl, by decide⟩)).1 rfl,
   ((C6_init (("gen").data)
       ⟨none, some (("/a").data), some 5, some (.pstr (("0").data)),
         none, none, none, none, none⟩).2.2.1
     (.pstr (("0").data)) rfl (Or.inr ⟨5, rfl, by decide⟩)).2.2
     0 rfl (by decide),
   by
    rw [(C6_init (("gen").data)
        ⟨none, none, none, none, none, none, none, none, none⟩).2.2.2
      (Or.inl rfl) (Or.inl rfl) (Or.inl rfl)]
    exact rfl,
   by
    rw [(C6_init (("gen").data)
        ⟨none, none, some 5, some (.pstr (("day").data)),
          none, none, none, none, none⟩).2.2.2
      (Or.inr ⟨5, rfl, by decide⟩)
      (Or.inr ⟨.pstr (("day").data), 86400, rfl, rfl, by decide⟩)
      (Or.inl rfl)]
    exact rfl⟩
